import Mathlib

/-!
Verification of the statikk object-mapping layer (src/statikk): a shallow
embedding of the index-key derivation, hierarchy flattening/reconstruction,
change tracking and batched-save logic of `engine.py` and `models.py`,
together with theorems settling the frozen claims about the spec.

Conventions of the embedding:
* Python attribute values that the claims exercise are modelled by `Value`
  (strings, ints and `None`); `_serialize_value` is the identity on this
  domain (its datetime/float/collection branches lie outside it).
* Python exceptions are modelled by `Except EngineError`.
* Entity trees are a mutual inductive (`Entity` / `ChildFields` /
  `EntityList`) mirroring a pydantic model whose declared fields are either
  scalars, a singular nested model, or a list of nested models.
* Class-level data (`index_definitions()`, `is_nested()`, the optional
  `should_track` override, `ignore_tracking_fields()`, and the declared
  entity-valued fields) lives in a registry `String → Option ClassInfo`
  keyed by the type tag, mirroring Python classes and the table's model
  registry.
-/

/-- A Python-level attribute value, restricted to the scalar domain the
claims exercise: strings, integers and `None`. -/
inductive Value where
  | vStr (s : String)
  | vInt (n : Int)
  | vNull
deriving DecidableEq, Repr

/-- Python truthiness of a `Value` (`""`, `0` and `None` are falsy). -/
def Value.truthy : Value → Bool
  | .vStr s => s ≠ ""
  | .vInt n => n ≠ 0
  | .vNull => false

/-- The Python runtime type of a `Value` (`type(value)`). -/
inductive PyType where
  | pyStr
  | pyInt
  | pyNone
deriving DecidableEq, Repr

def Value.pyType : Value → PyType
  | .vStr _ => .pyStr
  | .vInt _ => .pyInt
  | .vNull => .pyNone

/-- `str(value)` as used by f-string interpolation. -/
def Value.pyStr : Value → String
  | .vStr s => s
  | .vInt n => toString n
  | .vNull => "None"

/-- The declared type of an index key attribute (`Key.type`); the source
defaults it to `str` and the non-string case the claims exercise is `int`. -/
inductive KeyType where
  | tStr
  | tInt
deriving DecidableEq, Repr

/-- `type(value) is idx.sort_key.type` -/
def Value.hasType : Value → KeyType → Bool
  | .vStr _, .tStr => true
  | .vInt _, .tInt => true
  | _, _ => false

/-- `statikk.models.Key`: name, declared type and default of one physical
index key attribute. -/
structure Key where
  name : String
  type : KeyType := .tStr
  default : Value := .vStr ""
deriving DecidableEq, Repr

/-- `statikk.models.GSI`: a global secondary index. -/
structure GSI where
  name : String := "main-index"
  hash_key : Key
  sort_key : Key
deriving DecidableEq, Repr

/-- `statikk.models.KeySchema`: the table's primary key attribute names. -/
structure KeySchema where
  hash_key : String
  sort_key : Option String := none
deriving DecidableEq, Repr

/-- `statikk.models.IndexFieldConfig`: which entity fields feed an index's
partition and sort keys.  In this version of the source it is a plain pair
of ordered lists; there are no per-field `order` annotations and no
construction-time validation. -/
structure IndexFieldConfig where
  pk_fields : List String := []
  sk_fields : List String := []
deriving DecidableEq, Repr

/-- Errors raised by the engine (`IncorrectSortKeyError`,
`IncorrectHashKeyError`, `InvalidIndexNameError`, plus the Python-level
`AttributeError` / `KeyError` / `IndexError` / `TypeError` the code can hit,
and an artifact marker for exhausted recursion fuel). -/
inductive EngineError where
  | noSortKeyDefined
  | incorrectSortKeyType (sortKeyName : String) (expected : KeyType) (actual : PyType)
  | noHashKeyDefined
  | invalidIndexName (name : String)
  | invalidModelType (name : String)
  | attributeError (attr : String)
  | keyError (key : String)
  | indexError
  | typeError
  | fuelExhausted
deriving DecidableEq, Repr

/-- `FIELD_STATIKK_TYPE` from `statikk.fields` (the module is not part of
the given sources; the constant's value is visible at `engine.py` line 467,
`item["__statikk_type"]`). -/
def fieldStatikkType : String := "__statikk_type"

/-- First-match association-list lookup, the embedding of `getattr` /
dict lookup over a record of named values. -/
def lookupField (attrs : List (String × Value)) (name : String) : Option Value :=
  (attrs.find? (fun p => p.1 = name)).map (fun p => p.2)

/-- `Table._serialize_value`: on the scalar domain of `Value` (no datetime,
float, list, set or dict constructors) every branch of the source function
is the identity. -/
def serialize_value (v : Value) : Value := v

/-- A `str.join` element: Python's `"|".join(...)` raises `TypeError`
unless every element is a `str`. -/
def Value.joinStr : Value → Except EngineError String
  | .vStr s => .ok s
  | _ => .error .typeError

/-- The per-entity view that `Table._get_sort_key_value` and
`Table._compose_index_values` read: the entity's `type()`, its
`index_definitions()`, its own attributes (`getattr`), its parent's
attributes when `_parent` is set, and `is_nested()`. -/
structure IdxModel where
  typeTag : String
  indexDefs : List (String × IndexFieldConfig)
  attrs : List (String × Value)
  parentAttrs : Option (List (String × Value)) := none
  isNested : Bool := false
deriving DecidableEq, Repr

/-- `model.get_attribute(field)`: the synthetic type-tag field resolves to
`type()`; anything else is `getattr`, raising `AttributeError` if absent. -/
def get_attribute (m : IdxModel) (field : String) : Except EngineError Value :=
  if field = fieldStatikkType then .ok (.vStr m.typeTag)
  else match lookupField m.attrs field with
    | some v => .ok v
    | none => .error (.attributeError field)

/-- The loop `for sort_key_field in sort_key_fields: if sort_key_field in
model.model_fields.keys(): sort_key_values.append(self._serialize_value(
getattr(model, sort_key_field)))` followed by the str-typed join: fields
absent from the model are skipped, values must be strings. -/
def collectSkValues (attrs : List (String × Value)) :
    List String → Except EngineError (List String)
  | [] => .ok []
  | f :: rest =>
    match lookupField attrs f with
    | none => collectSkValues attrs rest
    | some v => do
      let s ← (serialize_value v).joinStr
      let l ← collectSkValues attrs rest
      .ok (s :: l)

/-- `Table._get_sort_key_value` (engine.py lines 574-600). -/
def get_sort_key_value (delim : String) (idx : GSI) (m : IdxModel) :
    Except EngineError Value :=
  match m.indexDefs.find? (fun p => p.1 = idx.name) with
  | none => .error (.attributeError "sk_fields")
  | some (_, cfg) =>
    match cfg.sk_fields with
    | [] => .error .noSortKeyDefined
    | f0 :: _ =>
      if idx.sort_key.type ≠ KeyType.tStr then
        match lookupField m.attrs f0 with
        | none => .error (.attributeError f0)
        | some value =>
          if ¬ value.hasType idx.sort_key.type then
            .error (.incorrectSortKeyType idx.sort_key.name idx.sort_key.type value.pyType)
          else
            let value := if value.truthy then value else idx.sort_key.default
            .ok (serialize_value value)
      else do
        let base ←
          match m.parentAttrs with
          | none => Except.ok ([] : List String)
          | some pattrs =>
            match lookupField pattrs idx.sort_key.name with
            | none => Except.error (.attributeError idx.sort_key.name)
            | some v => v.joinStr.map (fun s => [s])
        let base := if fieldStatikkType ∉ cfg.pk_fields
          then base ++ [m.typeTag] else base
        let vals ← collectSkValues m.attrs cfg.sk_fields
        .ok (.vStr (String.intercalate delim (base ++ vals)))

/-- The hash-key list comprehension of `_get_hash_key_value`:
`[self._serialize_value(model.get_attribute(field)) for field in hash_key_fields]`. -/
def collectPkValues (m : IdxModel) : List String → Except EngineError (List String)
  | [] => .ok []
  | f :: rest => do
    let v ← get_attribute m f
    let s ← (serialize_value v).joinStr
    let l ← collectPkValues m rest
    .ok (s :: l)

/-- `Table._compose_index_values` (engine.py lines 602-620); the returned
pair is (hash key value, sort key value). -/
def compose_index_values (delim : String) (idx : GSI) (m : IdxModel) :
    Except EngineError (Value × Value) :=
  match m.indexDefs.find? (fun p => p.1 = idx.name) with
  | none => .error .noHashKeyDefined
  | some (_, cfg) =>
    if cfg.pk_fields.isEmpty && !m.isNested then .error .noHashKeyDefined
    else do
      let hashv ←
        match m.parentAttrs with
        | some pattrs =>
          match lookupField pattrs idx.hash_key.name with
          | some v => Except.ok v
          | none => Except.error (.attributeError idx.hash_key.name)
        | none => do
          let vals ← collectPkValues m cfg.pk_fields
          Except.ok (Value.vStr (String.intercalate delim vals))
      let sortv ← get_sort_key_value delim idx m
      .ok (hashv, sortv)

section SortKeyScenario

/-- The `main-index` of the spec's Card scenario. -/
def mainIndexGSI : GSI :=
  { name := "main-index", hash_key := { name := "gsi_pk" }, sort_key := { name := "gsi_sk" } }

/-- `Card{player_id="123", tier="LEGENDARY"}` with
`index_definitions = {"main-index": IndexFieldConfig(pk_fields=["player_id"], sk_fields=["tier"])}`. -/
def cardModel : IdxModel :=
  { typeTag := "Card"
    indexDefs := [("main-index", { pk_fields := ["player_id"], sk_fields := ["tier"] })]
    attrs := [("player_id", .vStr "123"), ("tier", .vStr "LEGENDARY")] }

example : get_sort_key_value "|" mainIndexGSI cardModel = .ok (.vStr "Card|LEGENDARY") := rfl

example : compose_index_values "|" mainIndexGSI cardModel =
    .ok (.vStr "123", .vStr "Card|LEGENDARY") := rfl

end SortKeyScenario

theorem collectSkValues_eq_map (attrs : List (String × Value)) (fields : List String)
    (sval : String → String)
    (h : ∀ f ∈ fields, lookupField attrs f = some (.vStr (sval f))) :
    collectSkValues attrs fields = .ok (fields.map sval) := by
  induction fields with
  | nil => rfl
  | cons f rest ih =>
    have hf := h f (by simp)
    have hrest : ∀ g ∈ rest, lookupField attrs g = some (.vStr (sval g)) :=
      fun g hg => h g (by simp [hg])
    unfold collectSkValues
    rw [hf, ih hrest]
    rfl

/-- C2 (amended): for a STRING-typed sort key, the derived sort-key value
is the delimiter-join of: the parent's own sort-key attribute value when
the entity has a parent, then the entity's `type()` unless the type-tag is
one of that index's `pk_fields`, then each `sk_field`'s value in declared
order.  (The Card scenario is the witness below.)  The branch at
engine.py line 579 is decided by the declared key type ALONE, so a
non-string-typed index never joins: it returns the first `sk_field`'s raw
value even when several `sk_fields` are declared — the counterexample
below refutes the claim's multi-field non-string case. -/
theorem c2_string_sort_key_is_delimited_path
    (delim : String) (idx : GSI) (m : IdxModel) (cfg : IndexFieldConfig)
    (sval : String → String) (parentPart : List String)
    (hfind : m.indexDefs.find? (fun p => p.1 = idx.name) = some (idx.name, cfg))
    (hstr : idx.sort_key.type = KeyType.tStr)
    (hne : cfg.sk_fields ≠ [])
    (hvals : ∀ f ∈ cfg.sk_fields, lookupField m.attrs f = some (.vStr (sval f)))
    (hparent : match m.parentAttrs with
      | none => parentPart = []
      | some pattrs => ∃ s, lookupField pattrs idx.sort_key.name = some (.vStr s) ∧
          parentPart = [s]) :
    get_sort_key_value delim idx m = .ok (.vStr (String.intercalate delim
      (parentPart
        ++ (if fieldStatikkType ∈ cfg.pk_fields then [] else [m.typeTag])
        ++ cfg.sk_fields.map sval))) := by
  obtain ⟨f0, rest, hsk⟩ : ∃ f0 rest, cfg.sk_fields = f0 :: rest := by
    cases h : cfg.sk_fields with
    | nil => exact absurd h hne
    | cons a b => exact ⟨a, b, rfl⟩
  have hcollect := collectSkValues_eq_map m.attrs cfg.sk_fields sval hvals
  unfold get_sort_key_value
  rw [hfind]
  dsimp only
  rw [hsk, hstr]
  dsimp only [ne_eq, not_true_eq_false, if_false]
  rw [← hsk, hcollect]
  match hpar : m.parentAttrs with
  | none =>
    rw [hpar] at hparent
    subst hparent
    by_cases hpk : fieldStatikkType ∈ cfg.pk_fields
    · simp [hpk]
      rfl
    · simp [hpk]
      rfl
  | some pattrs =>
    rw [hpar] at hparent
    obtain ⟨s, hs, hpp⟩ := hparent
    subst hpp
    by_cases hpk : fieldStatikkType ∈ cfg.pk_fields
    · simp [hpk, hs, Value.joinStr]
      try rfl
    · simp [hpk, hs, Value.joinStr]
      try rfl

/-- C2 witness: `Card{player_id="123", tier="LEGENDARY"}` on
`main-index(pk=player_id, sk=tier)` derives sort key `"Card|LEGENDARY"`. -/
theorem c2_witness :
    get_sort_key_value "|" mainIndexGSI cardModel = .ok (.vStr "Card|LEGENDARY") := by
  have h := c2_string_sort_key_is_delimited_path "|" mainIndexGSI cardModel
    { pk_fields := ["player_id"], sk_fields := ["tier"] }
    (fun _ => "LEGENDARY") []
    (by rfl) (by rfl) (by simp)
    (by intro f hf; simp only [List.mem_singleton] at hf; subst hf; rfl)
    (by rfl)
  exact h.trans (by rfl)

/-- An integer-typed index together with an entity declaring TWO sort-key
fields for it (`tier` and `level`, both ints). -/
def c2cexIdx : GSI :=
  { name := "main-index", hash_key := { name := "gsi_pk" },
    sort_key := { name := "gsi_sk", type := .tInt, default := .vInt 0 } }

def c2cexModel : IdxModel :=
  { typeTag := "Multi"
    indexDefs := [("main-index",
      { pk_fields := ["player_id"], sk_fields := ["tier", "level"] })]
    attrs := [("player_id", .vStr "123"), ("tier", .vInt 5), ("level", .vInt 7)] }

/-- C2 counterexample: a sort key built from MULTIPLE `sk_fields` on a
non-string-typed index is NOT the claimed delimited concatenation.
`_get_sort_key_value` branches on the declared key type alone (engine.py
line 579) and returns the first field's raw value: here `5`, an int —
not the string `"Multi|5|7"` the claimed delimited path would give (nor
any string at all). -/
theorem c2_counterexample :
    get_sort_key_value "|" c2cexIdx c2cexModel = .ok (.vInt 5)
    ∧ ¬ (get_sort_key_value "|" c2cexIdx c2cexModel
        = .ok (.vStr (String.intercalate "|" ["Multi", "5", "7"]))) := by
  refine ⟨rfl, ?_⟩
  intro h
  have h2 : (Except.ok (Value.vInt 5) : Except EngineError Value)
      = Except.ok (Value.vStr (String.intercalate "|" ["Multi", "5", "7"])) := h
  injection h2 with h3
  exact Value.noConfusion h3

/-- C7: with a single sort-key field and a non-string declared index key
type, the derived sort key is the field's raw value when the (type-correct)
value is truthy, the index's declared default when it is falsy/empty, and an
`IncorrectSortKeyError` naming the expected and actual types when the
value's runtime type differs from the declared one. -/
theorem c7_nonstring_single_sort_key
    (delim : String) (idx : GSI) (m : IdxModel) (cfg : IndexFieldConfig)
    (f : String) (v : Value)
    (hfind : m.indexDefs.find? (fun p => p.1 = idx.name) = some (idx.name, cfg))
    (hsk : cfg.sk_fields = [f])
    (htype : idx.sort_key.type = KeyType.tInt)
    (hval : lookupField m.attrs f = some v) :
    get_sort_key_value delim idx m =
      if ¬ v.hasType idx.sort_key.type then
        .error (.incorrectSortKeyType idx.sort_key.name idx.sort_key.type v.pyType)
      else if v.truthy then .ok v else .ok idx.sort_key.default := by
  unfold get_sort_key_value
  rw [hfind]
  dsimp only
  rw [hsk, htype]
  dsimp only
  rw [hval]
  by_cases ht : v.hasType KeyType.tInt = true
  · by_cases htr : v.truthy = true
    · simp [ht, htr, serialize_value]
    · simp [ht, htr, serialize_value]
  · simp [ht]

/-- Index with an integer-typed sort key and declared default `99`. -/
def intSortIdx : GSI :=
  { name := "main-index", hash_key := { name := "gsi_pk" },
    sort_key := { name := "gsi_sk", type := .tInt, default := .vInt 99 } }

/-- An entity with a single sort-key field `count` holding the int `5`. -/
def intSortModel : IdxModel :=
  { typeTag := "Counter"
    indexDefs := [("main-index", { pk_fields := ["player_id"], sk_fields := ["count"] })]
    attrs := [("player_id", .vStr "123"), ("count", .vInt 5)] }

/-- C7 witness: the raw int value `5` is returned unchanged. -/
theorem c7_witness :
    get_sort_key_value "|" intSortIdx intSortModel = .ok (.vInt 5) := by
  have h := c7_nonstring_single_sort_key "|" intSortIdx intSortModel
    { pk_fields := ["player_id"], sk_fields := ["count"] }
    "count" (.vInt 5) (by rfl) (by rfl) (by rfl) (by rfl)
  exact h.trans (by rfl)

/-- Python's `str.startswith`, phrased over the character list so that it
is amenable to proof. -/
def pyStartsWith (s p : String) : Bool := p.data.isPrefixOf s.data

/-- `statikk.conditions`: the key conditions produced by application code.
(`Between`, whose value is a pair, is not needed by any claim and is
omitted so that `Cond.value` — `self.value` — stays a plain string.) -/
inductive Cond where
  | eq (v : String)
  | beginsWith (v : String)
  | lt (v : String)
  | gt (v : String)
  | lte (v : String)
  | gte (v : String)
deriving DecidableEq, Repr

/-- `Condition.value`. -/
def Cond.value : Cond → String
  | .eq v => v
  | .beginsWith v => v
  | .lt v => v
  | .gt v => v
  | .lte v => v
  | .gte v => v

/-- A boto3 `ComparisonCondition` over one named attribute, as produced by
`Condition.evaluate(key)`. -/
inductive KeyCondExpr where
  | kEq (attr v : String)
  | kBeginsWith (attr v : String)
  | kLt (attr v : String)
  | kGt (attr v : String)
  | kLte (attr v : String)
  | kGte (attr v : String)
deriving DecidableEq, Repr

/-- `Condition.evaluate(key)` for each condition class. -/
def Cond.evaluate : Cond → String → KeyCondExpr
  | .eq v, a => .kEq a v
  | .beginsWith v, a => .kBeginsWith a v
  | .lt v, a => .kLt a v
  | .gt v, a => .kGt a v
  | .lte v, a => .kLte a v
  | .gte v, a => .kGte a v

/-- `BeginsWith.enrich` (conditions.py lines 40-42): values not already
starting with the model's `type()` are rewritten to
`f"{model_class.type()}|{self.value}"`.  All other condition classes
inherit the no-op `enrich`. -/
def Cond.enrich (typeTag : String) : Cond → Cond
  | .beginsWith v =>
    if pyStartsWith v typeTag then .beginsWith v
    else .beginsWith (typeTag ++ "|" ++ v)
  | c => c

/-- The combined `KeyConditionExpression`: either the hash-key condition
alone or `hash_condition & range_condition`. -/
inductive KeyCondition where
  | single (e : KeyCondExpr)
  | kAnd (a b : KeyCondExpr)
deriving DecidableEq, Repr

/-- The class-level view of a `DatabaseModel` subclass consumed by the
query layer: `type()`, `index_definitions()` and `is_nested()`. -/
structure ModelClassView where
  typeTag : String
  indexDefs : List (String × IndexFieldConfig)
  isNested : Bool := false
deriving DecidableEq, Repr

/-- `hash_key: Union[Condition | str]` — a plain string is wrapped into
`Equals`. -/
inductive HashKeyArg where
  | strArg (s : String)
  | condArg (c : Cond)
deriving DecidableEq, Repr

/-- The query parameters `_prepare_index_query_params` assembles (the
pass-through boto3 filter expression is irrelevant to the claims and kept
as an opaque optional string). -/
structure QueryParams where
  indexName : String
  keyCondition : KeyCondition
  filterExpr : Option String := none
deriving DecidableEq, Repr

/-- `Table._prepare_index_query_params` (engine.py lines 344-377). -/
def prepare_index_query_params (indexes : List GSI) (mc : ModelClassView)
    (hashKey : HashKeyArg) (rangeKey : Option Cond) (indexName : Option String)
    (filterExpr : Option String := none) : Except EngineError QueryParams := do
  let hk : Cond := match hashKey with
    | .strArg s => .eq s
    | .condArg c => c
  let idxName ← match indexName.filter (fun n => n ≠ "") with
    | some n => Except.ok n
    | none => match indexes with
      | [] => Except.error EngineError.indexError
      | i :: _ => Except.ok i.name
  let index ← match indexes.find? (fun i => i.name = idxName) with
    | some i => Except.ok i
    | none => Except.error (.invalidIndexName idxName)
  let keyCond := hk.evaluate index.hash_key.name
  let cfg ← match mc.indexDefs.find? (fun p => p.1 = idxName) with
    | some p => Except.ok p.2
    | none => Except.error (.keyError idxName)
  let rangeKey := if (match rangeKey with
      | none => true
      | some r => r.value ≠ mc.typeTag) && !(cfg.pk_fields.contains fieldStatikkType)
    then some (Cond.beginsWith mc.typeTag) else rangeKey
  match rangeKey with
  | none => .ok ⟨idxName, .single keyCond, filterExpr⟩
  | some rk =>
    let rk := if !mc.isNested then rk.enrich mc.typeTag else rk
    .ok ⟨idxName, .kAnd keyCond (rk.evaluate index.sort_key.name), filterExpr⟩

/-- Modelled from the spec (§6): the external store evaluates each key
condition as a predicate over one named attribute; `begins_with` selects
string values having the given value as a leading substring, the
comparisons use the string order.  (boto3/DynamoDB themselves are outside
the sources.) -/
def satExpr (attrs : List (String × Value)) : KeyCondExpr → Bool
  | .kEq a v => lookupField attrs a == some (.vStr v)
  | .kBeginsWith a v =>
    match lookupField attrs a with
    | some (.vStr s) => pyStartsWith s v
    | _ => false
  | .kLt a v =>
    match lookupField attrs a with
    | some (.vStr s) => decide (s < v)
    | _ => false
  | .kGt a v =>
    match lookupField attrs a with
    | some (.vStr s) => decide (v < s)
    | _ => false
  | .kLte a v =>
    match lookupField attrs a with
    | some (.vStr s) => decide (s ≤ v)
    | _ => false
  | .kGte a v =>
    match lookupField attrs a with
    | some (.vStr s) => decide (v ≤ s)
    | _ => false

/-- A record satisfies the combined key condition. -/
def satCond (attrs : List (String × Value)) : KeyCondition → Bool
  | .single e => satExpr attrs e
  | .kAnd a b => satExpr attrs a && satExpr attrs b

theorem exceptOkBind {α β ε : Type} (a : α) (f : α → Except ε β) :
    (Except.ok a : Except ε α) >>= f = f a := rfl

theorem pyStartsWith_refl (s : String) : pyStartsWith s s = true := by
  simp [pyStartsWith, List.isPrefixOf_iff_prefix]

theorem pyStartsWith_append (a b : String) : pyStartsWith (a ++ b) a = true := by
  simp [pyStartsWith, List.isPrefixOf_iff_prefix]

/-- C8: a query that gives a partition-key condition and no range
condition, on a non-nested model class whose type-tag is not among the
index's `pk_fields`, gets the default range condition `BeginsWith(type())`
on the index's sort-key attribute; any record satisfying the resulting
key condition has a sort key starting with `type()`; and `BeginsWith.enrich`
rewrites a value not already starting with `type()` to the type-prefixed
form. -/
theorem c8_default_range_condition_is_type_begins_with
    (indexes : List GSI) (mc : ModelClassView) (hk : Cond)
    (idx : GSI) (name : String) (cfg : IndexFieldConfig)
    (hname : name ≠ "")
    (hfindIdx : indexes.find? (fun i => i.name = name) = some idx)
    (hcfg : mc.indexDefs.find? (fun p => p.1 = name) = some (name, cfg))
    (hnotpk : cfg.pk_fields.contains fieldStatikkType = false)
    (hnested : mc.isNested = false) :
    (prepare_index_query_params indexes mc (.condArg hk) none (some name) =
      .ok ⟨name, .kAnd (hk.evaluate idx.hash_key.name)
        (.kBeginsWith idx.sort_key.name mc.typeTag), none⟩)
    ∧ (∀ attrs : List (String × Value),
        satCond attrs (.kAnd (hk.evaluate idx.hash_key.name)
          (.kBeginsWith idx.sort_key.name mc.typeTag)) = true →
        ∃ s, lookupField attrs idx.sort_key.name = some (.vStr s) ∧
          pyStartsWith s mc.typeTag = true)
    ∧ (∀ v : String, pyStartsWith v mc.typeTag = false →
        Cond.enrich mc.typeTag (.beginsWith v) = .beginsWith (mc.typeTag ++ "|" ++ v)
        ∧ pyStartsWith (mc.typeTag ++ "|" ++ v) mc.typeTag = true) := by
  refine ⟨?_, ?_, ?_⟩
  · unfold prepare_index_query_params
    have h1 : (some name).filter (fun n => n ≠ "") = some name := by
      simp [Option.filter, hname]
    rw [h1]
    simp only [exceptOkBind]
    rw [hfindIdx]
    simp only [exceptOkBind]
    rw [hcfg]
    simp only [exceptOkBind, hnotpk, Bool.not_false, Bool.and_true, if_true, reduceIte]
    rw [hnested]
    simp [Cond.enrich, pyStartsWith_refl, Cond.evaluate]
  · intro attrs h
    simp only [satCond, Bool.and_eq_true, satExpr] at h
    obtain ⟨-, h2⟩ := h
    revert h2
    match hlook : lookupField attrs idx.sort_key.name with
    | none => intro h2; cases h2
    | some (.vStr s) => intro h2; exact ⟨s, rfl, h2⟩
    | some (.vInt n) => intro h2; cases h2
    | some .vNull => intro h2; cases h2
  · intro v hv
    constructor
    · simp [Cond.enrich, hv]
    · rw [String.append_assoc]
      exact pyStartsWith_append mc.typeTag ("|" ++ v)

/-- The class-level view of the Card model. -/
def cardClassView : ModelClassView :=
  { typeTag := "Card"
    indexDefs := [("main-index", { pk_fields := ["player_id"], sk_fields := ["tier"] })] }

/-- C8 witness: querying `main-index` with `Equals("123")` and no range
condition on Card defaults to `BeginsWith("Card")` on `gsi_sk`. -/
theorem c8_witness :
    prepare_index_query_params [mainIndexGSI] cardClassView
      (.condArg (.eq "123")) none (some "main-index") =
      .ok ⟨"main-index", .kAnd (.kEq "gsi_pk" "123") (.kBeginsWith "gsi_sk" "Card"), none⟩ := by
  have h := (c8_default_range_condition_is_type_begins_with [mainIndexGSI] cardClassView
    (.eq "123") mainIndexGSI "main-index"
    { pk_fields := ["player_id"], sk_fields := ["tier"] }
    (by decide) (by rfl) (by rfl) (by rfl) (by rfl)).1
  exact h.trans (by rfl)

/-- One queued put: its serialized payload plus the `was_modified` and
`should_write_to_database()` answers the put loop consults.  (The claims
about `_perform_batch_write` concern guarding, grouping and order, so the
serialized item is abstracted to an opaque payload.) -/
structure PutEntry where
  payload : String
  was_modified : Bool := true
  should_write : Bool := true
deriving DecidableEq, Repr

/-- One batched call to the store: each `with dynamodb_table.batch_writer()
as batch: ...` block is one grouped operation. -/
inductive BatchGroup where
  | deleteItemsGroup (items : List String)
  | deleteKeysGroup (keys : List (List (String × String)))
  | putsGroup (items : List String)
deriving DecidableEq, Repr

/-- `Table._perform_batch_write` (engine.py lines 622-651): the sequence of
batched store operations it issues, in program order. -/
def perform_batch_write (put_items : List PutEntry) (delete_items : List String)
    (delete_keys : List (List (String × String))) : List BatchGroup :=
  if put_items.length = 0 ∧ delete_items.length = 0 then []
  else
    (if delete_items.length > 0 then [BatchGroup.deleteItemsGroup delete_items] else [])
    ++ (if delete_keys.length > 0 then [BatchGroup.deleteKeysGroup delete_keys] else [])
    ++ (if put_items.length > 0 then
          [BatchGroup.putsGroup ((put_items.filter
            (fun i => i.was_modified && i.should_write)).map (fun i => i.payload))]
        else [])

/-- C5 counterexample: with one put, one delete-by-item and one
delete-by-key queued, the store sees the delete-by-item group FIRST and
the delete-by-key group second — not deletes-by-key first as claimed. -/
theorem c5_counterexample :
    perform_batch_write [{ payload := "p" }] ["d"] [[("id", "k")]] =
      [.deleteItemsGroup ["d"], .deleteKeysGroup [[("id", "k")]], .putsGroup ["p"]]
    ∧ perform_batch_write [{ payload := "p" }] ["d"] [[("id", "k")]] ≠
      [.deleteKeysGroup [[("id", "k")]], .deleteItemsGroup ["d"], .putsGroup ["p"]] := by
  exact ⟨rfl, by decide⟩

/-- C5 (amended): when the batch is executed at all (puts or
deletes-by-item present), the groups run in the order deletes-by-ITEM,
then deletes-by-KEY, then puts, each group as one batched operation and
empty groups skipped; the put group keeps only modified, writable items. -/
theorem c5_batch_group_order
    (put_items : List PutEntry) (delete_items : List String)
    (delete_keys : List (List (String × String)))
    (h : put_items ≠ [] ∨ delete_items ≠ []) :
    perform_batch_write put_items delete_items delete_keys =
      (if delete_items.isEmpty then [] else [.deleteItemsGroup delete_items])
      ++ (if delete_keys.isEmpty then [] else [.deleteKeysGroup delete_keys])
      ++ (if put_items.isEmpty then [] else
          [.putsGroup ((put_items.filter
            (fun i => i.was_modified && i.should_write)).map (fun i => i.payload))]) := by
  rcases put_items with _ | ⟨p, ps⟩ <;> rcases delete_items with _ | ⟨d, ds⟩ <;>
    rcases delete_keys with _ | ⟨k, ks⟩ <;>
    simp_all [perform_batch_write]

/-- C5 witness for the amended ordering theorem. -/
theorem c5_witness :
    perform_batch_write [{ payload := "p" }] ["d"] [[("id", "k")]] =
      [.deleteItemsGroup ["d"], .deleteKeysGroup [[("id", "k")]], .putsGroup ["p"]] := by
  have h := c5_batch_group_order [{ payload := "p" }] ["d"] [[("id", "k")]]
    (Or.inl (by decide))
  exact h.trans (by rfl)

/-- C10: when there are no puts and no deletes-by-item, the early return
fires and NO store operation is issued at all, even though delete-by-key
entries are queued — they are silently dropped. -/
theorem c10_key_deletes_dropped_when_puts_and_item_deletes_empty
    (delete_keys : List (List (String × String)))
    (h : delete_keys ≠ []) :
    perform_batch_write [] [] delete_keys = [] := rfl

/-- C10 witness. -/
theorem c10_witness : perform_batch_write [] [] [[("id", "k")]] = [] :=
  c10_key_deletes_dropped_when_puts_and_item_deletes_empty [[("id", "k")]] (by decide)

/-- Declared kind of an entity-valued field of a model class: a singular
nested model (`nested: Child`) or a list of nested models
(`nested: list[Child]`); `split_to_simple_objects` and
`_process_item` handle exactly these two shapes. -/
inductive FieldKind where
  | kOne
  | kMany
deriving DecidableEq, Repr

/-- Class-level information about one registered `DatabaseModel` subclass:
its declared entity-valued fields in declaration order (`model_fields`
restricted to entity slots), `index_definitions()`, `is_nested()`, an
optional constant `should_track` property override, and
`ignore_tracking_fields()`. -/
structure ClassInfo where
  schema : List (String × FieldKind)
  indexDefs : List (String × IndexFieldConfig) := []
  isNested : Bool := false
  shouldTrackOverride : Option Bool := none
  ignoreTracking : List String := []
deriving DecidableEq, Repr

/-- Instance-level data of one entity: `id`, its `type()` tag, its scalar
(non-entity) fields in declaration order, and the private
`_should_delete` mark.  Parent references are not stored: in a wired tree
(`set_parent_references`) `_parent` is the containing node, which the
structural embedding keeps implicit. -/
structure EntityData where
  id : String
  typeTag : String
  scalars : List (String × Value)
  marked : Bool := false
deriving DecidableEq, Repr

mutual
/-- An entity tree node: instance data plus its entity-valued fields. -/
inductive Entity : Type where
  | mk (data : EntityData) (fields : ChildFields) : Entity
/-- The ordered entity-valued fields of one node.  An `fOne` slot models a
singular field and holds zero (None) or one child — well-formedness bounds
its length; an `fMany` slot models a list field. -/
inductive ChildFields : Type where
  | nil : ChildFields
  | fOne (name : String) (value : EntityList) (rest : ChildFields) : ChildFields
  | fMany (name : String) (value : EntityList) (rest : ChildFields) : ChildFields
/-- A list of child entities (kept first-order so that the mutual
recursion stays structural). -/
inductive EntityList : Type where
  | lnil : EntityList
  | lcons (e : Entity) (rest : EntityList) : EntityList
end

def Entity.data : Entity → EntityData
  | .mk d _ => d

def Entity.fields : Entity → ChildFields
  | .mk _ fs => fs

def elToList : EntityList → List Entity
  | .lnil => []
  | .lcons e rest => e :: elToList rest

def listToEL : List Entity → EntityList
  | [] => .lnil
  | e :: rest => .lcons e (listToEL rest)

/-- The (name, kind) skeleton of a node's entity-valued fields; for a
well-formed node this equals its class's declared `schema`. -/
def fieldsSchema : ChildFields → List (String × FieldKind)
  | .nil => []
  | .fOne f _ rest => (f, .kOne) :: fieldsSchema rest
  | .fMany f _ rest => (f, .kMany) :: fieldsSchema rest

def fieldNames (fs : ChildFields) : List String := (fieldsSchema fs).map (fun p => p.1)

mutual
/-- All ids in a subtree, preorder. -/
def entityIds : Entity → List String
  | .mk d fs => d.id :: fieldsIds fs
def fieldsIds : ChildFields → List String
  | .nil => []
  | .fOne _ es rest => elIds es ++ fieldsIds rest
  | .fMany _ es rest => elIds es ++ fieldsIds rest
def elIds : EntityList → List String
  | .lnil => []
  | .lcons e rest => entityIds e ++ elIds rest
end

mutual
def heightE : Entity → Nat
  | .mk _ fs => heightF fs + 1
def heightF : ChildFields → Nat
  | .nil => 0
  | .fOne _ es rest => max (heightL es) (heightF rest)
  | .fMany _ es rest => max (heightL es) (heightF rest)
def heightL : EntityList → Nat
  | .lnil => 0
  | .lcons e rest => max (heightE e) (heightL rest)
end

mutual
/-- No node of the subtree is marked for deletion. -/
def noMarkedE : Entity → Bool
  | .mk d fs => !d.marked && noMarkedF fs
def noMarkedF : ChildFields → Bool
  | .nil => true
  | .fOne _ es rest => noMarkedL es && noMarkedF rest
  | .fMany _ es rest => noMarkedL es && noMarkedF rest
def noMarkedL : EntityList → Bool
  | .lnil => true
  | .lcons e rest => noMarkedE e && noMarkedL rest
end

mutual
/-- Well-formedness of an entity tree against the class registry: nonempty
ids, each node's entity-field skeleton matches its registered class
schema, field names are nonempty and duplicate-free, and singular slots
hold at most one child.  (These all hold of any tree actually built from
pydantic model instances.) -/
def wfE (reg : String → Option ClassInfo) : Entity → Bool
  | .mk d fs =>
    decide (d.id ≠ "") &&
    (match reg d.typeTag with
     | some info => decide (info.schema = fieldsSchema fs)
     | none => false) &&
    (fieldNames fs).all (fun f => decide (f ≠ "")) &&
    decide ((fieldNames fs).Nodup) &&
    wfF reg fs
def wfF (reg : String → Option ClassInfo) : ChildFields → Bool
  | .nil => true
  | .fOne _ es rest => decide ((elToList es).length ≤ 1) && wfL reg es && wfF reg rest
  | .fMany _ es rest => wfL reg es && wfF reg rest
def wfL (reg : String → Option ClassInfo) : EntityList → Bool
  | .lnil => true
  | .lcons e rest => wfE reg e && wfL reg rest
end

/-- One flat stored record, as produced by `DatabaseModel.serialize_model`
with nested-model fields excluded (`_serialize_item` /
`get_nested_model_fields`): the entity's scalar fields, the reserved
type-tag attribute, and — when the entity has a parent — the reserved
parent-id and parent-field-name attributes. -/
structure FlatRecord where
  rid : String
  rtype : String
  rscalars : List (String × Value)
  rparent : Option (String × String)
deriving DecidableEq, Repr

/-- The serialized record of one node under a given parent annotation. -/
def recOf (e : Entity) (par : Option (String × String)) : FlatRecord :=
  ⟨e.data.id, e.data.typeTag, e.data.scalars, par⟩

mutual
/-- `split_to_simple_objects` composed with per-item serialization: the
flat records of a subtree in preorder (each node, then its children field
by field in declaration order).  The `item not in items` dedup of the
source is the identity on trees with duplicate-free ids. -/
def flattenE (par : Option (String × String)) : Entity → List FlatRecord
  | .mk d fs => ⟨d.id, d.typeTag, d.scalars, par⟩ :: flattenF d.id fs
def flattenF (pid : String) : ChildFields → List FlatRecord
  | .nil => []
  | .fOne f es rest => flattenL pid f es ++ flattenF pid rest
  | .fMany f es rest => flattenL pid f es ++ flattenF pid rest
def flattenL (pid f : String) : EntityList → List FlatRecord
  | .lnil => []
  | .lcons e rest => flattenE (some (pid, f)) e ++ flattenL pid f rest
end

/-- The children of record id `pid` recorded under field `f`:
`children_by_parent_id` groups by a truthy `FIELD_STATIKK_PARENT_ID` and
`_process_item` groups those by a truthy parent-field name, both
preserving input order, which filtering realizes. -/
def childRecordsOf (records : List FlatRecord) (pid f : String) : List FlatRecord :=
  if pid = "" ∨ f = "" then []
  else records.filter (fun r => decide (r.rparent = some (pid, f)))

mutual
/-- `Table._process_item` (engine.py lines 691-753) fused with the final
`model_validate`: rebuild the node of a record — its class looked up by
type tag (`_get_model_type_by_statikk_type`), its entity-valued fields
repopulated from the records grouped under its id.  The source recurses on
an acyclic record graph; the embedding makes the recursion total with a
fuel parameter that bounds recursion depth and is in surplus on all
round-trip inputs. -/
def processItem (reg : String → Option ClassInfo) (records : List FlatRecord) :
    Nat → FlatRecord → Except EngineError Entity
  | 0, _ => .error .fuelExhausted
  | fuel + 1, r =>
    match reg r.rtype with
    | none => .error (.invalidModelType r.rtype)
    | some info => do
      let fs ← buildFields reg records fuel r.rid info.schema
      .ok (.mk { id := r.rid, typeTag := r.rtype, scalars := r.rscalars } fs)
termination_by fuel r => (fuel, 0, 0)
/-- The per-field loop of `_process_item`: a list-typed field is rebuilt
from all its grouped children in order; a singular field from its unique
grouped child, staying at its (empty) default when there is no child or
more than one. -/
def buildFields (reg : String → Option ClassInfo) (records : List FlatRecord) :
    Nat → String → List (String × FieldKind) → Except EngineError ChildFields
  | _, _, [] => .ok .nil
  | fuel, pid, (f, .kMany) :: rest => do
    let children ← processList reg records fuel (childRecordsOf records pid f)
    let tail ← buildFields reg records fuel pid rest
    .ok (.fMany f children tail)
  | fuel, pid, (f, .kOne) :: rest =>
    match childRecordsOf records pid f with
    | [c] => do
      let e ← processItem reg records fuel c
      let tail ← buildFields reg records fuel pid rest
      .ok (.fOne f (.lcons e .lnil) tail)
    | _ => do
      let tail ← buildFields reg records fuel pid rest
      .ok (.fOne f .lnil tail)
termination_by fuel pid sch => (fuel, 2, sch.length)
def processList (reg : String → Option ClassInfo) (records : List FlatRecord) :
    Nat → List FlatRecord → Except EngineError EntityList
  | _, [] => .ok .lnil
  | fuel, c :: cs => do
    let e ← processItem reg records fuel c
    let rest ← processList reg records fuel cs
    .ok (.lcons e rest)
termination_by fuel cs => (fuel, 1, cs.length)
end

/-- `Table.reconstruct_hierarchy` (engine.py lines 663-689): the root is
the first record carrying no parent id; its absence yields "no result". -/
def reconstruct_hierarchy (reg : String → Option ClassInfo)
    (records : List FlatRecord) : Except EngineError (Option Entity) :=
  match records.find? (fun r => r.rparent.isNone) with
  | none => .ok none
  | some root => (processItem reg records records.length root).map some

theorem elToList_eq_nil (es : EntityList) (h : elToList es = []) : es = .lnil := by
  cases es with
  | lnil => rfl
  | lcons e rest => simp [elToList] at h

/-- The children stored under field name `f` across a field list (for a
node with duplicate-free field names, the content of the unique slot
named `f`). -/
def childrenAtF : ChildFields → String → List Entity
  | .nil, _ => []
  | .fOne g es rest, f => (if g = f then elToList es else []) ++ childrenAtF rest f
  | .fMany g es rest, f => (if g = f then elToList es else []) ++ childrenAtF rest f

mutual
theorem flattenE_parent_mem (par : Option (String × String)) (e : Entity) :
    ∀ r ∈ flattenE par e, r.rparent = par ∨
      ∃ q g, r.rparent = some (q, g) ∧ q ∈ entityIds e := by
  cases e with
  | mk d fs =>
    intro r hr
    rw [flattenE] at hr
    rcases List.mem_cons.mp hr with h | h
    · subst h
      exact Or.inl rfl
    · obtain ⟨q, g, hqg, hmem⟩ := flattenF_parent_mem d.id fs r h
      refine Or.inr ⟨q, g, hqg, ?_⟩
      rw [entityIds]
      rcases hmem with ⟨heq, -⟩ | hmem
      · exact heq ▸ List.mem_cons_self _ _
      · exact List.mem_cons_of_mem _ hmem
theorem flattenF_parent_mem (pid : String) (fs : ChildFields) :
    ∀ r ∈ flattenF pid fs, ∃ q g, r.rparent = some (q, g) ∧
      ((q = pid ∧ g ∈ fieldNames fs) ∨ q ∈ fieldsIds fs) := by
  cases fs with
  | nil => intro r hr; rw [flattenF] at hr; cases hr
  | fOne f0 es rest =>
    intro r hr
    rw [flattenF] at hr
    rcases List.mem_append.mp hr with h | h
    · rcases flattenL_parent_mem pid f0 es r h with h1 | ⟨q, g, hqg, hmem⟩
      · exact ⟨pid, f0, h1, Or.inl ⟨rfl, by simp [fieldNames, fieldsSchema]⟩⟩
      · exact ⟨q, g, hqg, Or.inr (by rw [fieldsIds]; exact List.mem_append_left _ hmem)⟩
    · obtain ⟨q, g, hqg, hmem⟩ := flattenF_parent_mem pid rest r h
      refine ⟨q, g, hqg, ?_⟩
      rcases hmem with ⟨hq, hg⟩ | hmem
      · exact Or.inl ⟨hq, by simp [fieldNames, fieldsSchema]; exact Or.inr (by simpa [fieldNames] using hg)⟩
      · exact Or.inr (by rw [fieldsIds]; exact List.mem_append_right _ hmem)
  | fMany f0 es rest =>
    intro r hr
    rw [flattenF] at hr
    rcases List.mem_append.mp hr with h | h
    · rcases flattenL_parent_mem pid f0 es r h with h1 | ⟨q, g, hqg, hmem⟩
      · exact ⟨pid, f0, h1, Or.inl ⟨rfl, by simp [fieldNames, fieldsSchema]⟩⟩
      · exact ⟨q, g, hqg, Or.inr (by rw [fieldsIds]; exact List.mem_append_left _ hmem)⟩
    · obtain ⟨q, g, hqg, hmem⟩ := flattenF_parent_mem pid rest r h
      refine ⟨q, g, hqg, ?_⟩
      rcases hmem with ⟨hq, hg⟩ | hmem
      · exact Or.inl ⟨hq, by simp [fieldNames, fieldsSchema]; exact Or.inr (by simpa [fieldNames] using hg)⟩
      · exact Or.inr (by rw [fieldsIds]; exact List.mem_append_right _ hmem)
theorem flattenL_parent_mem (pid f : String) (es : EntityList) :
    ∀ r ∈ flattenL pid f es, r.rparent = some (pid, f) ∨
      ∃ q g, r.rparent = some (q, g) ∧ q ∈ elIds es := by
  cases es with
  | lnil => intro r hr; rw [flattenL] at hr; cases hr
  | lcons e rest =>
    intro r hr
    rw [flattenL] at hr
    rcases List.mem_append.mp hr with h | h
    · rcases flattenE_parent_mem (some (pid, f)) e r h with h1 | ⟨q, g, hqg, hmem⟩
      · exact Or.inl h1
      · exact Or.inr ⟨q, g, hqg, by rw [elIds]; exact List.mem_append_left _ hmem⟩
    · rcases flattenL_parent_mem pid f rest r h with h1 | ⟨q, g, hqg, hmem⟩
      · exact Or.inl h1
      · exact Or.inr ⟨q, g, hqg, by rw [elIds]; exact List.mem_append_right _ hmem⟩
end

theorem childrenAtF_not_mem (fs : ChildFields) (f : String)
    (h : f ∉ fieldNames fs) : childrenAtF fs f = [] := by
  cases fs with
  | nil => rfl
  | fOne g es rest =>
    simp only [fieldNames, fieldsSchema, List.map_cons, List.mem_cons] at h
    push_neg at h
    rw [childrenAtF, if_neg (fun hgf => h.1 hgf.symm),
      childrenAtF_not_mem rest f (by simpa [fieldNames] using h.2)]
    rfl
  | fMany g es rest =>
    simp only [fieldNames, fieldsSchema, List.map_cons, List.mem_cons] at h
    push_neg at h
    rw [childrenAtF, if_neg (fun hgf => h.1 hgf.symm),
      childrenAtF_not_mem rest f (by simpa [fieldNames] using h.2)]
    rfl

mutual
theorem filter_flattenE (e : Entity) (par : Option (String × String)) (pid f : String)
    (hpid : pid ∉ entityIds e) :
    (flattenE par e).filter (fun r => decide (r.rparent = some (pid, f))) =
      if par = some (pid, f) then [recOf e par] else [] := by
  cases e with
  | mk d fs =>
    rw [entityIds, List.mem_cons] at hpid
    push_neg at hpid
    rw [flattenE, List.filter_cons,
      filter_flattenF fs d.id pid f hpid.2, if_neg (Ne.symm hpid.1)]
    by_cases hpar : par = some (pid, f)
    · simp [hpar, recOf, Entity.data]
    · simp [hpar, recOf]
theorem filter_flattenF (fs : ChildFields) (qid pid f : String)
    (hpid : pid ∉ fieldsIds fs) :
    (flattenF qid fs).filter (fun r => decide (r.rparent = some (pid, f))) =
      if qid = pid then (childrenAtF fs f).map (fun c => recOf c (some (pid, f)))
      else [] := by
  cases fs with
  | nil =>
    rw [flattenF, childrenAtF]
    simp
  | fOne g es rest =>
    rw [fieldsIds] at hpid
    rw [flattenF, List.filter_append,
      filter_flattenL es qid g pid f (fun h => hpid (List.mem_append_left _ h)),
      filter_flattenF rest qid pid f (fun h => hpid (List.mem_append_right _ h)),
      childrenAtF]
    by_cases hq : qid = pid
    · subst hq
      by_cases hg : g = f
      · simp [hg]
      · simp [hg]
    · simp [hq]
  | fMany g es rest =>
    rw [fieldsIds] at hpid
    rw [flattenF, List.filter_append,
      filter_flattenL es qid g pid f (fun h => hpid (List.mem_append_left _ h)),
      filter_flattenF rest qid pid f (fun h => hpid (List.mem_append_right _ h)),
      childrenAtF]
    by_cases hq : qid = pid
    · subst hq
      by_cases hg : g = f
      · simp [hg]
      · simp [hg]
    · simp [hq]
theorem filter_flattenL (es : EntityList) (qid g pid f : String)
    (hpid : pid ∉ elIds es) :
    (flattenL qid g es).filter (fun r => decide (r.rparent = some (pid, f))) =
      if qid = pid ∧ g = f then
        (elToList es).map (fun c => recOf c (some (pid, f)))
      else [] := by
  cases es with
  | lnil =>
    rw [flattenL, elToList]
    simp
  | lcons e rest =>
    rw [elIds] at hpid
    rw [flattenL, List.filter_append,
      filter_flattenE e (some (qid, g)) pid f (fun h => hpid (List.mem_append_left _ h)),
      filter_flattenL rest qid g pid f (fun h => hpid (List.mem_append_right _ h)),
      elToList]
    by_cases hqg : qid = pid ∧ g = f
    · obtain ⟨hq, hg⟩ := hqg
      subst hq
      subst hg
      simp
    · have hne : ¬ (some (qid, g) = some (pid, f)) := by
        intro hcontra
        apply hqg
        have := Option.some.inj hcontra
        exact ⟨congrArg Prod.fst this, congrArg Prod.snd this⟩
      simp [hne, hqg]
end

theorem nodupAppendDisj {α : Type} {a b : List α} (h : (a ++ b).Nodup) :
    ∀ x ∈ a, x ∉ b := by
  intro x hxa hxb
  rcases List.nodup_append.mp h with ⟨-, -, hd⟩
  exact hd hxa hxb

theorem childRecordsOf_decompose (pre mid post : List FlatRecord) (pid f : String)
    (hpid : pid ≠ "") (hf : f ≠ "")
    (hpre : ∀ r ∈ pre, r.rparent ≠ some (pid, f))
    (hpost : ∀ r ∈ post, r.rparent ≠ some (pid, f)) :
    childRecordsOf (pre ++ (mid ++ post)) pid f =
      mid.filter (fun r => decide (r.rparent = some (pid, f))) := by
  unfold childRecordsOf
  rw [if_neg (by simp [hpid, hf])]
  rw [List.filter_append, List.filter_append]
  have h1 : pre.filter (fun r => decide (r.rparent = some (pid, f))) = [] := by
    rw [List.filter_eq_nil_iff]
    intro r hr
    simpa using hpre r hr
  have h2 : post.filter (fun r => decide (r.rparent = some (pid, f))) = [] := by
    rw [List.filter_eq_nil_iff]
    intro r hr
    simpa using hpost r hr
  rw [h1, h2, List.nil_append, List.append_nil]

theorem somePairInj {a b c d : String}
    (h : (some (a, b) : Option (String × String)) = some (c, d)) : a = c ∧ b = d := by
  have h2 := Option.some.inj h
  rw [Prod.mk.injEq] at h2
  exact h2

theorem entityDataEta (d : EntityData) (h : d.marked = false) :
    ({ id := d.id, typeTag := d.typeTag, scalars := d.scalars } : EntityData) = d := by
  cases d with
  | mk did dty dsc dmk =>
    rw [show dmk = false from h]

mutual
theorem reconstructItem (reg : String → Option ClassInfo) (e : Entity) (fuel : Nat)
    (par : Option (String × String)) (pre post : List FlatRecord)
    (hfuel : heightE e ≤ fuel)
    (hwf : wfE reg e = true)
    (hnodup : (entityIds e).Nodup)
    (hnomark : noMarkedE e = true)
    (hpar : ∀ q g, par = some (q, g) → q ∉ entityIds e)
    (hframe : ∀ r, (r ∈ pre ∨ r ∈ post) → ∀ q g, r.rparent = some (q, g) →
      q ∉ entityIds e) :
    processItem reg (pre ++ flattenE par e ++ post) fuel (recOf e par) = .ok e := by
  cases e with
  | mk d fs =>
    rw [wfE] at hwf
    simp only [Bool.and_eq_true, decide_eq_true_eq, List.all_eq_true] at hwf
    obtain ⟨⟨⟨⟨hid, hreg0⟩, hnames0⟩, hnodupNames⟩, hwfF⟩ := hwf
    have hnames : ∀ g ∈ fieldNames fs, g ≠ "" := by
      intro g hg
      simpa using hnames0 g hg
    obtain ⟨info, hreg, hschema⟩ : ∃ info, reg d.typeTag = some info ∧
        info.schema = fieldsSchema fs := by
      cases hregv : reg d.typeTag with
      | none => rw [hregv] at hreg0; cases hreg0
      | some info => rw [hregv] at hreg0; exact ⟨info, rfl, by simpa using hreg0⟩
    rw [noMarkedE] at hnomark
    simp only [Bool.and_eq_true, Bool.not_eq_true'] at hnomark
    obtain ⟨hmark, hnomarkF⟩ := hnomark
    rw [entityIds] at hnodup hpar hframe
    have hidnotin : d.id ∉ fieldsIds fs := (List.nodup_cons.mp hnodup).1
    have hnodupF : (fieldsIds fs).Nodup := (List.nodup_cons.mp hnodup).2
    rw [heightE] at hfuel
    cases fuel with
    | zero => omega
    | succ fuel =>
      have hfuelF : heightF fs ≤ fuel := by omega
      simp only [processItem]
      dsimp only [recOf, Entity.data]
      rw [hreg]
      dsimp only
      have hrecords : pre ++ flattenE par (.mk d fs) ++ post =
          (pre ++ [recOf (.mk d fs) par]) ++ (flattenF d.id fs ++ post) := by
        rw [flattenE]
        simp [recOf, Entity.data]
      rw [hrecords, hschema]
      have hbuild := reconstructFields reg fs fuel d.id
        (pre ++ [recOf (.mk d fs) par]) post hfuelF hwfF hnames hnodupNames
        hnodupF hnomarkF hid hidnotin
        (by
          intro r hr q g hq
          rcases hr with hr | hr
          · rcases List.mem_append.mp hr with hr | hr
            · have hnm := hframe r (Or.inl hr) q g hq
              simp only [List.mem_cons, not_or] at hnm
              exact ⟨fun hqe => absurd hqe hnm.1, hnm.2⟩
            · have hrrec : r = recOf (.mk d fs) par := by
                simpa using hr
              have hqpar : par = some (q, g) := by
                rw [hrrec] at hq
                exact hq
              have hnm := hpar q g hqpar
              simp only [List.mem_cons, not_or] at hnm
              exact ⟨fun hqe => absurd hqe hnm.1, hnm.2⟩
          · have hnm := hframe r (Or.inr hr) q g hq
            simp only [List.mem_cons, not_or] at hnm
            exact ⟨fun hqe => absurd hqe hnm.1, hnm.2⟩)
      rw [hbuild]
      simp only [exceptOkBind]
      rw [entityDataEta d hmark]
theorem reconstructFields (reg : String → Option ClassInfo) (fs : ChildFields)
    (fuel : Nat) (pid : String) (pre post : List FlatRecord)
    (hfuel : heightF fs ≤ fuel)
    (hwf : wfF reg fs = true)
    (hnames : ∀ g ∈ fieldNames fs, g ≠ "")
    (hnodupNames : (fieldNames fs).Nodup)
    (hnodup : (fieldsIds fs).Nodup)
    (hnomark : noMarkedF fs = true)
    (hpid : pid ≠ "")
    (hpidIds : pid ∉ fieldsIds fs)
    (hframe : ∀ r, (r ∈ pre ∨ r ∈ post) → ∀ q g, r.rparent = some (q, g) →
      (q = pid → g ∉ fieldNames fs) ∧ q ∉ fieldsIds fs) :
    buildFields reg (pre ++ (flattenF pid fs ++ post)) fuel pid (fieldsSchema fs) =
      .ok fs := by
  cases fs with
  | nil =>
    rw [fieldsSchema]
    simp only [buildFields]
  | fMany f0 es rest =>
    rw [wfF, Bool.and_eq_true] at hwf
    obtain ⟨hwfL, hwfRest⟩ := hwf
    rw [noMarkedF, Bool.and_eq_true] at hnomark
    obtain ⟨hnomarkL, hnomarkRest⟩ := hnomark
    rw [fieldsIds] at hnodup hpidIds hframe
    have hf0 : f0 ≠ "" := hnames f0 (by simp [fieldNames, fieldsSchema])
    have hf0NotRest : f0 ∉ fieldNames rest := by
      have hn := hnodupNames
      rw [show fieldNames (.fMany f0 es rest) = f0 :: fieldNames rest from by
        simp [fieldNames, fieldsSchema], List.nodup_cons] at hn
      exact hn.1
    have hnamesRest : ∀ g ∈ fieldNames rest, g ≠ "" := by
      intro g hg
      exact hnames g (by
        simp only [fieldNames, fieldsSchema, List.map_cons, List.mem_cons]
        exact Or.inr (by simpa [fieldNames] using hg))
    have hnodupNamesRest : (fieldNames rest).Nodup := by
      have hn := hnodupNames
      rw [show fieldNames (.fMany f0 es rest) = f0 :: fieldNames rest from by
        simp [fieldNames, fieldsSchema], List.nodup_cons] at hn
      exact hn.2
    have hdisj : ∀ x ∈ elIds es, x ∉ fieldsIds rest := nodupAppendDisj hnodup
    have hpidEs : pid ∉ elIds es := fun h => hpidIds (List.mem_append_left _ h)
    have hpidRest : pid ∉ fieldsIds rest := fun h => hpidIds (List.mem_append_right _ h)
    rw [fieldsSchema]
    simp only [buildFields]
    rw [flattenF]
    have hassoc1 : pre ++ ((flattenL pid f0 es ++ flattenF pid rest) ++ post) =
        pre ++ (flattenL pid f0 es ++ (flattenF pid rest ++ post)) := by
      simp [List.append_assoc]
    rw [hassoc1]
    have hchild : childRecordsOf
        (pre ++ (flattenL pid f0 es ++ (flattenF pid rest ++ post))) pid f0 =
        (elToList es).map (fun c => recOf c (some (pid, f0))) := by
      rw [childRecordsOf_decompose pre (flattenL pid f0 es) (flattenF pid rest ++ post)
        pid f0 hpid hf0
        (by
          intro r hr hcontra
          exact (hframe r (Or.inl hr) pid f0 hcontra).1 rfl (by simp [fieldNames, fieldsSchema]))
        (by
          intro r hr hcontra
          rcases List.mem_append.mp hr with hr | hr
          · rcases flattenF_parent_mem pid rest r hr with ⟨q, g, hqg, hcases⟩
            rw [hcontra] at hqg
            obtain ⟨hpidq, hf0g⟩ := somePairInj hqg
            rcases hcases with ⟨-, hgmem⟩ | hqmem
            · exact hf0NotRest (by rw [hf0g]; exact hgmem)
            · exact hpidRest (by rw [hpidq]; exact hqmem)
          · exact (hframe r (Or.inr hr) pid f0 hcontra).1 rfl (by simp [fieldNames, fieldsSchema]))]
      rw [filter_flattenL es pid f0 pid f0 hpidEs]
      simp
    rw [hchild]
    have hlist := reconstructList reg es fuel pid f0 pre (flattenF pid rest ++ post)
      (le_trans (le_max_left _ _) (by rw [heightF] at hfuel; exact hfuel))
      hwfL (List.Nodup.of_append_left hnodup) hnomarkL hpidEs
      (by
        intro r hr q g hq
        rcases hr with hr | hr
        · exact fun hmem => (hframe r (Or.inl hr) q g hq).2 (List.mem_append_left _ hmem)
        · rcases List.mem_append.mp hr with hr | hr
          · rcases flattenF_parent_mem pid rest r hr with ⟨q2, g2, hqg2, hcases⟩
            rw [hq] at hqg2
            obtain ⟨hqq2, -⟩ := somePairInj hqg2
            rcases hcases with ⟨hq2pid, -⟩ | hq2mem
            · rw [hqq2, hq2pid]
              exact hpidEs
            · intro hmem
              exact hdisj q hmem (by rw [hqq2]; exact hq2mem)
          · exact fun hmem => (hframe r (Or.inr hr) q g hq).2 (List.mem_append_left _ hmem))
    rw [hlist]
    simp only [exceptOkBind]
    have hrest := reconstructFields reg rest fuel pid (pre ++ flattenL pid f0 es) post
      (le_trans (le_max_right _ _) (by rw [heightF] at hfuel; exact hfuel))
      hwfRest hnamesRest hnodupNamesRest (List.Nodup.of_append_right hnodup)
      hnomarkRest hpid hpidRest
      (by
        intro r hr q g hq
        rcases hr with hr | hr
        · rcases List.mem_append.mp hr with hr | hr
          · have hfr := hframe r (Or.inl hr) q g hq
            refine ⟨fun hqpid hgmem => (hfr.1 hqpid) ?_,
              fun hmem => hfr.2 (List.mem_append_right _ hmem)⟩
            simp only [fieldNames, fieldsSchema, List.map_cons, List.mem_cons]
            exact Or.inr (by simpa [fieldNames] using hgmem)
          · rcases flattenL_parent_mem pid f0 es r hr with hpf | ⟨q2, g2, hqg2, hq2mem⟩
            · rw [hq] at hpf
              obtain ⟨hqpid, hgf0⟩ := somePairInj hpf.symm
              constructor
              · intro _ hgmem
                exact hf0NotRest (by rw [hgf0]; exact hgmem)
              · rw [← hqpid]
                exact hpidRest
            · rw [hq] at hqg2
              obtain ⟨hqq2, -⟩ := somePairInj hqg2
              constructor
              · intro hqpid
                exfalso
                apply hpidEs
                rw [← hqpid, hqq2]
                exact hq2mem
              · intro hmem
                exact hdisj q (by rw [hqq2]; exact hq2mem) hmem
        · have hfr := hframe r (Or.inr hr) q g hq
          refine ⟨fun hqpid hgmem => (hfr.1 hqpid) ?_,
            fun hmem => hfr.2 (List.mem_append_right _ hmem)⟩
          simp only [fieldNames, fieldsSchema, List.map_cons, List.mem_cons]
          exact Or.inr (by simpa [fieldNames] using hgmem))
    rw [show (pre ++ flattenL pid f0 es) ++ (flattenF pid rest ++ post) =
      pre ++ (flattenL pid f0 es ++ (flattenF pid rest ++ post)) from by
      simp [List.append_assoc]] at hrest
    rw [hrest]
    rfl
  | fOne f0 es rest =>
    rw [wfF] at hwf
    simp only [Bool.and_eq_true, decide_eq_true_eq] at hwf
    obtain ⟨⟨hlen, hwfL⟩, hwfRest⟩ := hwf
    rw [noMarkedF, Bool.and_eq_true] at hnomark
    obtain ⟨hnomarkL, hnomarkRest⟩ := hnomark
    rw [fieldsIds] at hnodup hpidIds hframe
    have hf0 : f0 ≠ "" := hnames f0 (by simp [fieldNames, fieldsSchema])
    have hf0NotRest : f0 ∉ fieldNames rest := by
      have hn := hnodupNames
      rw [show fieldNames (.fOne f0 es rest) = f0 :: fieldNames rest from by
        simp [fieldNames, fieldsSchema], List.nodup_cons] at hn
      exact hn.1
    have hnamesRest : ∀ g ∈ fieldNames rest, g ≠ "" := by
      intro g hg
      exact hnames g (by
        simp only [fieldNames, fieldsSchema, List.map_cons, List.mem_cons]
        exact Or.inr (by simpa [fieldNames] using hg))
    have hnodupNamesRest : (fieldNames rest).Nodup := by
      have hn := hnodupNames
      rw [show fieldNames (.fOne f0 es rest) = f0 :: fieldNames rest from by
        simp [fieldNames, fieldsSchema], List.nodup_cons] at hn
      exact hn.2
    have hdisj : ∀ x ∈ elIds es, x ∉ fieldsIds rest := nodupAppendDisj hnodup
    have hpidEs : pid ∉ elIds es := fun h => hpidIds (List.mem_append_left _ h)
    have hpidRest : pid ∉ fieldsIds rest := fun h => hpidIds (List.mem_append_right _ h)
    rw [fieldsSchema]
    simp only [buildFields]
    rw [flattenF]
    have hassoc1 : pre ++ ((flattenL pid f0 es ++ flattenF pid rest) ++ post) =
        pre ++ (flattenL pid f0 es ++ (flattenF pid rest ++ post)) := by
      simp [List.append_assoc]
    rw [hassoc1]
    have hchild : childRecordsOf
        (pre ++ (flattenL pid f0 es ++ (flattenF pid rest ++ post))) pid f0 =
        (elToList es).map (fun c => recOf c (some (pid, f0))) := by
      rw [childRecordsOf_decompose pre (flattenL pid f0 es) (flattenF pid rest ++ post)
        pid f0 hpid hf0
        (by
          intro r hr hcontra
          exact (hframe r (Or.inl hr) pid f0 hcontra).1 rfl (by simp [fieldNames, fieldsSchema]))
        (by
          intro r hr hcontra
          rcases List.mem_append.mp hr with hr | hr
          · rcases flattenF_parent_mem pid rest r hr with ⟨q, g, hqg, hcases⟩
            rw [hcontra] at hqg
            obtain ⟨hpidq, hf0g⟩ := somePairInj hqg
            rcases hcases with ⟨-, hgmem⟩ | hqmem
            · exact hf0NotRest (by rw [hf0g]; exact hgmem)
            · exact hpidRest (by rw [hpidq]; exact hqmem)
          · exact (hframe r (Or.inr hr) pid f0 hcontra).1 rfl (by simp [fieldNames, fieldsSchema]))]
      rw [filter_flattenL es pid f0 pid f0 hpidEs]
      simp
    rw [hchild]
    have hrest := reconstructFields reg rest fuel pid (pre ++ flattenL pid f0 es) post
      (le_trans (le_max_right _ _) (by rw [heightF] at hfuel; exact hfuel))
      hwfRest hnamesRest hnodupNamesRest (List.Nodup.of_append_right hnodup)
      hnomarkRest hpid hpidRest
      (by
        intro r hr q g hq
        rcases hr with hr | hr
        · rcases List.mem_append.mp hr with hr | hr
          · have hfr := hframe r (Or.inl hr) q g hq
            refine ⟨fun hqpid hgmem => (hfr.1 hqpid) ?_,
              fun hmem => hfr.2 (List.mem_append_right _ hmem)⟩
            simp only [fieldNames, fieldsSchema, List.map_cons, List.mem_cons]
            exact Or.inr (by simpa [fieldNames] using hgmem)
          · rcases flattenL_parent_mem pid f0 es r hr with hpf | ⟨q2, g2, hqg2, hq2mem⟩
            · rw [hq] at hpf
              obtain ⟨hqpid, hgf0⟩ := somePairInj hpf.symm
              constructor
              · intro _ hgmem
                exact hf0NotRest (by rw [hgf0]; exact hgmem)
              · rw [← hqpid]
                exact hpidRest
            · rw [hq] at hqg2
              obtain ⟨hqq2, -⟩ := somePairInj hqg2
              constructor
              · intro hqpid
                exfalso
                apply hpidEs
                rw [← hqpid, hqq2]
                exact hq2mem
              · intro hmem
                exact hdisj q (by rw [hqq2]; exact hq2mem) hmem
        · have hfr := hframe r (Or.inr hr) q g hq
          refine ⟨fun hqpid hgmem => (hfr.1 hqpid) ?_,
            fun hmem => hfr.2 (List.mem_append_right _ hmem)⟩
          simp only [fieldNames, fieldsSchema, List.map_cons, List.mem_cons]
          exact Or.inr (by simpa [fieldNames] using hgmem))
    rw [show (pre ++ flattenL pid f0 es) ++ (flattenF pid rest ++ post) =
      pre ++ (flattenL pid f0 es ++ (flattenF pid rest ++ post)) from by
      simp [List.append_assoc]] at hrest
    match hel : elToList es with
    | [] =>
      have hesnil : es = .lnil := elToList_eq_nil es hel
      subst hesnil
      simp only [List.map_nil]
      rw [hrest]
      rfl
    | c :: [] =>
      have hes : es = EntityList.lcons c .lnil := by
        cases es with
        | lnil => simp [elToList] at hel
        | lcons e2 rest2 =>
          rw [elToList, List.cons.injEq] at hel
          rw [hel.1, elToList_eq_nil rest2 hel.2]
      subst hes
      simp only [elToList, List.map_cons, List.map_nil]
      rw [wfL, Bool.and_eq_true] at hwfL
      rw [noMarkedL, Bool.and_eq_true] at hnomarkL
      have hnodupC : (entityIds c).Nodup := by
        have h1 := List.Nodup.of_append_left hnodup
        rw [elIds] at h1
        exact List.Nodup.of_append_left h1
      have hpidC : pid ∉ entityIds c := by
        intro hmem
        exact hpidEs (by rw [elIds]; exact List.mem_append_left _ hmem)
      have hdisjC : ∀ x ∈ entityIds c, x ∉ fieldsIds rest := by
        intro x hx
        exact hdisj x (by rw [elIds]; exact List.mem_append_left _ hx)
      have hfuelC : heightE c ≤ fuel := by
        have h1 : heightE c ≤ heightL (EntityList.lcons c .lnil) := by
          rw [heightL]
          exact le_max_left _ _
        have h2 : heightL (EntityList.lcons c .lnil) ≤
            heightF (ChildFields.fOne f0 (EntityList.lcons c .lnil) rest) := by
          rw [heightF]
          exact le_max_left _ _
        rw [heightF] at hfuel
        exact le_trans (le_trans h1 h2) (by rw [heightF]; exact hfuel)
      have hitem := reconstructItem reg c fuel (some (pid, f0)) pre
        (flattenF pid rest ++ post) hfuelC hwfL.1 hnodupC hnomarkL.1
        (by
          intro q g hqg
          obtain ⟨hpidq, -⟩ := somePairInj hqg
          rw [← hpidq]
          exact hpidC)
        (by
          intro r hr q g hq
          rcases hr with hr | hr
          · intro hmem
            exact (hframe r (Or.inl hr) q g hq).2
              (List.mem_append_left _ (by rw [elIds]; exact List.mem_append_left _ hmem))
          · rcases List.mem_append.mp hr with hr | hr
            · rcases flattenF_parent_mem pid rest r hr with ⟨q2, g2, hqg2, hcases⟩
              rw [hq] at hqg2
              obtain ⟨hqq2, -⟩ := somePairInj hqg2
              rcases hcases with ⟨hq2pid, -⟩ | hq2mem
              · rw [hqq2, hq2pid]
                exact hpidC
              · intro hmem
                exact hdisjC q hmem (by rw [hqq2]; exact hq2mem)
            · intro hmem
              exact (hframe r (Or.inr hr) q g hq).2
                (List.mem_append_left _ (by rw [elIds]; exact List.mem_append_left _ hmem)))
      rw [List.append_assoc] at hitem
      rw [show flattenL pid f0 (EntityList.lcons c .lnil) =
        flattenE (some (pid, f0)) c from by
        rw [flattenL, flattenL, List.append_nil]] at hrest ⊢
      rw [hitem]
      simp only [exceptOkBind]
      rw [hrest]
      rfl
    | c1 :: c2 :: cs =>
      rw [hel] at hlen
      simp at hlen
theorem reconstructList (reg : String → Option ClassInfo) (es : EntityList)
    (fuel : Nat) (pid f : String) (pre post : List FlatRecord)
    (hfuel : heightL es ≤ fuel)
    (hwf : wfL reg es = true)
    (hnodup : (elIds es).Nodup)
    (hnomark : noMarkedL es = true)
    (hpidEs : pid ∉ elIds es)
    (hframe : ∀ r, (r ∈ pre ∨ r ∈ post) → ∀ q g, r.rparent = some (q, g) →
      q ∉ elIds es) :
    processList reg (pre ++ (flattenL pid f es ++ post)) fuel
      ((elToList es).map (fun c => recOf c (some (pid, f)))) = .ok es := by
  cases es with
  | lnil =>
    rw [elToList]
    simp only [List.map_nil, processList]
  | lcons e rest =>
    rw [wfL, Bool.and_eq_true] at hwf
    obtain ⟨hwfE, hwfRest⟩ := hwf
    rw [noMarkedL, Bool.and_eq_true] at hnomark
    obtain ⟨hnomarkE, hnomarkRest⟩ := hnomark
    rw [elIds] at hnodup hpidEs hframe
    have hdisj : ∀ x ∈ entityIds e, x ∉ elIds rest := nodupAppendDisj hnodup
    have hpidE : pid ∉ entityIds e := fun h => hpidEs (List.mem_append_left _ h)
    have hpidRest : pid ∉ elIds rest := fun h => hpidEs (List.mem_append_right _ h)
    rw [elToList]
    simp only [List.map_cons, processList]
    rw [flattenL]
    have hassoc : pre ++ ((flattenE (some (pid, f)) e ++ flattenL pid f rest) ++ post) =
        pre ++ (flattenE (some (pid, f)) e ++ (flattenL pid f rest ++ post)) := by
      simp [List.append_assoc]
    rw [hassoc]
    have hitem := reconstructItem reg e fuel (some (pid, f)) pre
      (flattenL pid f rest ++ post)
      (le_trans (le_max_left _ _) (by rw [heightL] at hfuel; exact hfuel))
      hwfE (List.Nodup.of_append_left hnodup) hnomarkE
      (by
        intro q g hqg
        obtain ⟨hpidq, -⟩ := somePairInj hqg
        rw [← hpidq]
        exact hpidE)
      (by
        intro r hr q g hq
        rcases hr with hr | hr
        · exact fun hmem => hframe r (Or.inl hr) q g hq (List.mem_append_left _ hmem)
        · rcases List.mem_append.mp hr with hr | hr
          · rcases flattenL_parent_mem pid f rest r hr with hpf | ⟨q2, g2, hqg2, hq2mem⟩
            · rw [hq] at hpf
              obtain ⟨hpidq, -⟩ := somePairInj hpf.symm
              rw [← hpidq]
              exact hpidE
            · rw [hq] at hqg2
              obtain ⟨hqq2, -⟩ := somePairInj hqg2
              exact fun hmem => hdisj q hmem (by rw [hqq2]; exact hq2mem)
          · exact fun hmem => hframe r (Or.inr hr) q g hq (List.mem_append_left _ hmem))
    rw [List.append_assoc] at hitem
    rw [hitem]
    simp only [exceptOkBind]
    have hrest := reconstructList reg rest fuel pid f
      (pre ++ flattenE (some (pid, f)) e) post
      (le_trans (le_max_right _ _) (by rw [heightL] at hfuel; exact hfuel))
      hwfRest (List.Nodup.of_append_right hnodup) hnomarkRest hpidRest
      (by
        intro r hr q g hq
        rcases hr with hr | hr
        · rcases List.mem_append.mp hr with hr | hr
          · exact fun hmem => hframe r (Or.inl hr) q g hq (List.mem_append_right _ hmem)
          · rcases flattenE_parent_mem (some (pid, f)) e r hr with hpf | ⟨q2, g2, hqg2, hq2mem⟩
            · rw [hq] at hpf
              obtain ⟨hpidq, -⟩ := somePairInj hpf.symm
              rw [← hpidq]
              exact hpidRest
            · rw [hq] at hqg2
              obtain ⟨hqq2, -⟩ := somePairInj hqg2
              exact fun hmem => hdisj q (by rw [hqq2]; exact hq2mem) hmem
        · exact fun hmem => hframe r (Or.inr hr) q g hq (List.mem_append_right _ hmem))
    rw [show (pre ++ flattenE (some (pid, f)) e) ++ (flattenL pid f rest ++ post) =
      pre ++ (flattenE (some (pid, f)) e ++ (flattenL pid f rest ++ post)) from by
      simp [List.append_assoc]] at hrest
    rw [hrest]
    rfl
end

/-- The table configuration that key derivation reads: the configured
secondary indexes and the delimiter. -/
structure TableCfg where
  indexes : List GSI
  delimiter : String := "|"
deriving DecidableEq, Repr

/-- `setattr` on a pydantic model with `Extra.allow`: update the existing
attribute in place, or append a new one. -/
def setScalar : List (String × Value) → String → Value → List (String × Value)
  | [], n, v => [(n, v)]
  | (m, w) :: rest, n, v =>
    if m = n then (m, v) :: rest else (m, w) :: setScalar rest n v

/-- The `IdxModel` view of one tree node during `build_model_indexes`: its
own attributes are `id` plus its current scalar fields, its class data
comes from the registry, and the parent attributes are the parent node's
(already computed, preorder) attributes. -/
def idxView (reg : String → Option ClassInfo)
    (parentAttrs : Option (List (String × Value)))
    (d : EntityData) (scalars : List (String × Value)) : IdxModel :=
  { typeTag := d.typeTag
    indexDefs := match reg d.typeTag with
      | some info => info.indexDefs
      | none => []
    attrs := ("id", .vStr d.id) :: scalars
    parentAttrs := parentAttrs
    isNested := match reg d.typeTag with
      | some info => info.isNested
      | none => false }

/-- `Table.build_model_indexes` (engine.py lines 328-335) applied to one
node: for every configured index compute `_compose_index_values` and
assign the sort-key attribute, then the hash-key attribute. -/
def buildNodeScalars (reg : String → Option ClassInfo) (delim : String)
    (parentAttrs : Option (List (String × Value))) (d : EntityData) :
    List GSI → List (String × Value) → Except EngineError (List (String × Value))
  | [], scalars => .ok scalars
  | idx :: rest, scalars => do
    let vals ← compose_index_values delim idx (idxView reg parentAttrs d scalars)
    buildNodeScalars reg delim parentAttrs d rest
      (setScalar (setScalar scalars idx.sort_key.name vals.2) idx.hash_key.name vals.1)

mutual
/-- `DatabaseModel.build_model_indexes`: the dfs (preorder) walk calling
`Table.build_model_indexes` per node.  Each node is fully built before its
children, so a child's `getattr(model._parent, ...)` reads the parent's
final attributes, which the recursion passes down. -/
def buildE (reg : String → Option ClassInfo) (delim : String) (indexes : List GSI)
    (parentAttrs : Option (List (String × Value))) :
    Entity → Except EngineError Entity
  | .mk d fs => do
    let sc ← buildNodeScalars reg delim parentAttrs d indexes d.scalars
    let fs2 ← buildF reg delim indexes (("id", Value.vStr d.id) :: sc) fs
    .ok (.mk { d with scalars := sc } fs2)
def buildF (reg : String → Option ClassInfo) (delim : String) (indexes : List GSI)
    (pattrs : List (String × Value)) : ChildFields → Except EngineError ChildFields
  | .nil => .ok .nil
  | .fOne f es rest => do
    let es2 ← buildL reg delim indexes pattrs es
    let rest2 ← buildF reg delim indexes pattrs rest
    .ok (.fOne f es2 rest2)
  | .fMany f es rest => do
    let es2 ← buildL reg delim indexes pattrs es
    let rest2 ← buildF reg delim indexes pattrs rest
    .ok (.fMany f es2 rest2)
def buildL (reg : String → Option ClassInfo) (delim : String) (indexes : List GSI)
    (pattrs : List (String × Value)) : EntityList → Except EngineError EntityList
  | .lnil => .ok .lnil
  | .lcons e rest => do
    let e2 ← buildE reg delim indexes (some pattrs) e
    let rest2 ← buildL reg delim indexes pattrs rest
    .ok (.lcons e2 rest2)
end

/-- `build_model_indexes` on a whole tree rooted at a parentless entity. -/
def build_model_indexes (tbl : TableCfg) (reg : String → Option ClassInfo)
    (T : Entity) : Except EngineError Entity :=
  buildE reg tbl.delimiter tbl.indexes none T

/-- A node's attribute view after building (its `id` plus scalars). -/
def nodeAttr (e : Entity) (a : String) : Option Value :=
  lookupField (("id", .vStr e.data.id) :: e.data.scalars) a

mutual
/-- All (parent, child) pairs of a tree. -/
def edgesE : Entity → List (Entity × Entity)
  | .mk d fs => edgesF (.mk d fs) fs
def edgesF (p : Entity) : ChildFields → List (Entity × Entity)
  | .nil => []
  | .fOne _ es rest => edgesL p es ++ edgesF p rest
  | .fMany _ es rest => edgesL p es ++ edgesF p rest
def edgesL (p : Entity) : EntityList → List (Entity × Entity)
  | .lnil => []
  | .lcons e rest => (p, e) :: (edgesE e ++ edgesL p rest)
end

/-- The physical attribute names of a list of indexes, in assignment
order. -/
def idxAttrNames (idxs : List GSI) : List String :=
  idxs.flatMap (fun i => [i.sort_key.name, i.hash_key.name])

theorem exceptBindOk {α β ε : Type} {mx : Except ε α} {k : α → Except ε β} {y : β}
    (h : mx >>= k = .ok y) : ∃ x, mx = .ok x ∧ k x = .ok y := by
  cases mx with
  | ok x => exact ⟨x, rfl, h⟩
  | error e => simp [Bind.bind, Except.bind] at h

theorem lookupField_cons (n : String) (v : Value) (l : List (String × Value))
    (a : String) :
    lookupField ((n, v) :: l) a = if n = a then some v else lookupField l a := by
  by_cases h : n = a <;> simp [lookupField, List.find?_cons, h]

theorem lookupField_setScalar_self (l : List (String × Value)) (n : String) (v : Value) :
    lookupField (setScalar l n v) n = some v := by
  induction l with
  | nil => simp [setScalar, lookupField_cons]
  | cons p rest ih =>
    obtain ⟨m, w⟩ := p
    by_cases h : m = n
    · subst h
      simp [setScalar, lookupField_cons]
    · rw [setScalar, if_neg h, lookupField_cons, if_neg h]
      exact ih

theorem lookupField_setScalar_other (l : List (String × Value)) (n a : String)
    (v : Value) (h : n ≠ a) :
    lookupField (setScalar l n v) a = lookupField l a := by
  induction l with
  | nil => simp [setScalar, lookupField_cons, h, lookupField]
  | cons p rest ih =>
    obtain ⟨m, w⟩ := p
    by_cases hm : m = n
    · subst hm
      rw [setScalar, if_pos rfl, lookupField_cons, lookupField_cons,
        if_neg h, if_neg h]
    · rw [setScalar, if_neg hm, lookupField_cons, lookupField_cons]
      by_cases hma : m = a
      · simp [hma]
      · rw [if_neg hma, if_neg hma]
        exact ih

/-- When the model has a parent, a successful `_compose_index_values`
returns verbatim the parent's hash-key attribute as the hash value. -/
theorem compose_hash_of_parent (delim : String) (idx : GSI) (m : IdxModel)
    (pattrs : List (String × Value)) (pr : Value × Value)
    (hpa : m.parentAttrs = some pattrs)
    (h : compose_index_values delim idx m = .ok pr) :
    lookupField pattrs idx.hash_key.name = some pr.1 := by
  unfold compose_index_values at h
  cases hfind : m.indexDefs.find? (fun p => p.1 = idx.name) with
  | none => rw [hfind] at h; cases h
  | some p =>
    obtain ⟨nm, cfg⟩ := p
    rw [hfind] at h
    dsimp only at h
    by_cases hempty : (cfg.pk_fields.isEmpty && !m.isNested) = true
    · rw [if_pos hempty] at h; cases h
    · rw [if_neg hempty] at h
      rw [hpa] at h
      dsimp only at h
      cases hlook : lookupField pattrs idx.hash_key.name with
      | none => rw [hlook] at h; cases h
      | some v =>
        rw [hlook] at h
        simp only [exceptOkBind] at h
        cases hsort : get_sort_key_value delim idx m with
        | error e => rw [hsort] at h; cases h
        | ok s =>
          rw [hsort] at h
          simp only [exceptOkBind] at h
          have := Except.ok.inj h
          rw [← this]

theorem buildNodeScalars_preserve (reg : String → Option ClassInfo) (delim : String)
    (pa : Option (List (String × Value))) (d : EntityData) :
    ∀ (idxs : List GSI) (sc0 sc : List (String × Value)) (a : String),
    buildNodeScalars reg delim pa d idxs sc0 = .ok sc →
    (∀ i ∈ idxs, i.hash_key.name ≠ a ∧ i.sort_key.name ≠ a) →
    lookupField sc a = lookupField sc0 a := by
  intro idxs
  induction idxs with
  | nil =>
    intro sc0 sc a hb hnames
    rw [buildNodeScalars] at hb
    rw [Except.ok.inj hb]
  | cons idx rest ih =>
    intro sc0 sc a hb hnames
    rw [buildNodeScalars] at hb
    obtain ⟨pr, hpr, hrest⟩ := exceptBindOk hb
    have h1 := ih _ _ a hrest (fun i hi => hnames i (List.mem_cons_of_mem _ hi))
    rw [h1, lookupField_setScalar_other _ _ _ _ (hnames idx (List.mem_cons_self _ _)).1,
      lookupField_setScalar_other _ _ _ _ (hnames idx (List.mem_cons_self _ _)).2]

/-- After building a parented node, each index's hash-key attribute equals
the parent's hash-key attribute for that index (given that the physical
index attribute names do not collide). -/
theorem buildNodeScalars_parent_hash (reg : String → Option ClassInfo) (delim : String)
    (pattrs : List (String × Value)) (d : EntityData) :
    ∀ (idxs : List GSI) (sc0 sc : List (String × Value)),
    (idxAttrNames idxs).Nodup →
    buildNodeScalars reg delim (some pattrs) d idxs sc0 = .ok sc →
    ∀ idx ∈ idxs, lookupField sc idx.hash_key.name =
      lookupField pattrs idx.hash_key.name := by
  intro idxs
  induction idxs with
  | nil =>
    intro sc0 sc hnd hb idx hidx
    cases hidx
  | cons idx0 rest ih =>
    intro sc0 sc hnd hb idx hidx
    rw [buildNodeScalars] at hb
    obtain ⟨pr, hpr, hrest⟩ := exceptBindOk hb
    have hnd2 : (idx0.sort_key.name :: idx0.hash_key.name :: idxAttrNames rest).Nodup := by
      simpa [idxAttrNames] using hnd
    rcases List.mem_cons.mp hidx with hidx | hidx
    · subst hidx
      have hnotrest : ∀ i ∈ rest, i.hash_key.name ≠ idx.hash_key.name ∧
          i.sort_key.name ≠ idx.hash_key.name := by
        intro i hi
        have hh : idx.hash_key.name ∉ idxAttrNames rest :=
          (List.nodup_cons.mp (List.nodup_cons.mp hnd2).2).1
        constructor
        · intro hcontra
          exact hh (hcontra ▸ (by
            simp only [idxAttrNames, List.mem_flatMap]
            exact ⟨i, hi, by simp⟩))
        · intro hcontra
          exact hh (hcontra ▸ (by
            simp only [idxAttrNames, List.mem_flatMap]
            exact ⟨i, hi, by simp⟩))
      rw [buildNodeScalars_preserve reg delim (some pattrs) d rest _ _ _ hrest hnotrest,
        lookupField_setScalar_self]
      exact (compose_hash_of_parent delim idx _ pattrs pr rfl hpr).symm
    · exact ih _ _ (by
        have := (List.nodup_cons.mp (List.nodup_cons.mp hnd2).2).2
        exact this) hrest idx hidx

mutual
/-- Along every parent-child edge of a built tree, the child's hash-key
attribute for each configured index equals the parent's. -/
theorem buildEdgesE (reg : String → Option ClassInfo) (delim : String)
    (idxs : List GSI) (hnd : (idxAttrNames idxs).Nodup)
    (hid : "id" ∉ idxAttrNames idxs)
    (e e2 : Entity) (pa : Option (List (String × Value)))
    (hb : buildE reg delim idxs pa e = .ok e2) :
    ∀ pc ∈ edgesE e2, ∀ idx ∈ idxs,
      nodeAttr pc.2 idx.hash_key.name = nodeAttr pc.1 idx.hash_key.name := by
  cases e with
  | mk d fs =>
    rw [buildE] at hb
    obtain ⟨sc, hsc, hb2⟩ := exceptBindOk hb
    obtain ⟨fs2, hfs2, hb3⟩ := exceptBindOk hb2
    have he2 : e2 = .mk { d with scalars := sc } fs2 := (Except.ok.inj hb3).symm
    subst he2
    rw [edgesE]
    have hp : ∀ a, nodeAttr (.mk { d with scalars := sc } fs2) a =
        lookupField (("id", Value.vStr d.id) :: sc) a := by
      intro a
      rfl
    exact buildEdgesF reg delim idxs hnd hid fs fs2
      (("id", Value.vStr d.id) :: sc) (.mk { d with scalars := sc } fs2) hfs2 hp
theorem buildEdgesF (reg : String → Option ClassInfo) (delim : String)
    (idxs : List GSI) (hnd : (idxAttrNames idxs).Nodup)
    (hid : "id" ∉ idxAttrNames idxs)
    (fs fs2 : ChildFields) (pattrs : List (String × Value)) (p : Entity)
    (hb : buildF reg delim idxs pattrs fs = .ok fs2)
    (hp : ∀ a, nodeAttr p a = lookupField pattrs a) :
    ∀ pc ∈ edgesF p fs2, ∀ idx ∈ idxs,
      nodeAttr pc.2 idx.hash_key.name = nodeAttr pc.1 idx.hash_key.name := by
  cases fs with
  | nil =>
    rw [buildF] at hb
    rw [← Except.ok.inj hb]
    intro pc hpc
    rw [edgesF] at hpc
    cases hpc
  | fOne f es rest =>
    rw [buildF] at hb
    obtain ⟨es2, hes2, hb2⟩ := exceptBindOk hb
    obtain ⟨rest2, hrest2, hb3⟩ := exceptBindOk hb2
    rw [← Except.ok.inj hb3]
    intro pc hpc idx hidx
    rw [edgesF] at hpc
    rcases List.mem_append.mp hpc with hpc | hpc
    · exact buildEdgesL reg delim idxs hnd hid es es2 pattrs p hes2 hp pc hpc idx hidx
    · exact buildEdgesF reg delim idxs hnd hid rest rest2 pattrs p hrest2 hp pc hpc idx hidx
  | fMany f es rest =>
    rw [buildF] at hb
    obtain ⟨es2, hes2, hb2⟩ := exceptBindOk hb
    obtain ⟨rest2, hrest2, hb3⟩ := exceptBindOk hb2
    rw [← Except.ok.inj hb3]
    intro pc hpc idx hidx
    rw [edgesF] at hpc
    rcases List.mem_append.mp hpc with hpc | hpc
    · exact buildEdgesL reg delim idxs hnd hid es es2 pattrs p hes2 hp pc hpc idx hidx
    · exact buildEdgesF reg delim idxs hnd hid rest rest2 pattrs p hrest2 hp pc hpc idx hidx
theorem buildEdgesL (reg : String → Option ClassInfo) (delim : String)
    (idxs : List GSI) (hnd : (idxAttrNames idxs).Nodup)
    (hid : "id" ∉ idxAttrNames idxs)
    (es es2 : EntityList) (pattrs : List (String × Value)) (p : Entity)
    (hb : buildL reg delim idxs pattrs es = .ok es2)
    (hp : ∀ a, nodeAttr p a = lookupField pattrs a) :
    ∀ pc ∈ edgesL p es2, ∀ idx ∈ idxs,
      nodeAttr pc.2 idx.hash_key.name = nodeAttr pc.1 idx.hash_key.name := by
  cases es with
  | lnil =>
    rw [buildL] at hb
    rw [← Except.ok.inj hb]
    intro pc hpc
    rw [edgesL] at hpc
    cases hpc
  | lcons e rest =>
    rw [buildL] at hb
    obtain ⟨e2, he2, hb2⟩ := exceptBindOk hb
    obtain ⟨rest2, hrest2, hb3⟩ := exceptBindOk hb2
    rw [← Except.ok.inj hb3]
    intro pc hpc idx hidx
    rw [edgesL] at hpc
    rcases List.mem_cons.mp hpc with hpc | hpc
    · subst hpc
      -- the direct edge: the child's built hash attribute is inherited
      cases e with
      | mk dc fsc =>
        rw [buildE] at he2
        obtain ⟨scc, hscc, hc2⟩ := exceptBindOk he2
        obtain ⟨fsc2, hfsc2, hc3⟩ := exceptBindOk hc2
        rw [← Except.ok.inj hc3]
        have hhashid : idx.hash_key.name ≠ "id" := by
          intro hcontra
          apply hid
          simp only [idxAttrNames, List.mem_flatMap]
          exact ⟨idx, hidx, by simp [hcontra]⟩
        have hchild : nodeAttr (.mk { dc with scalars := scc } fsc2) idx.hash_key.name =
            lookupField scc idx.hash_key.name := by
          rw [nodeAttr]
          dsimp only [Entity.data]
          rw [lookupField_cons, if_neg (fun hcontra => hhashid hcontra.symm)]
        rw [hchild, hp,
          buildNodeScalars_parent_hash reg delim pattrs dc idxs _ _ hnd hscc idx hidx]
    · rcases List.mem_append.mp hpc with hpc | hpc
      · exact buildEdgesE reg delim idxs hnd hid e e2 (some pattrs) he2 pc hpc idx hidx
      · exact buildEdgesL reg delim idxs hnd hid rest rest2 pattrs p hrest2 hp pc hpc idx hidx
end

/-- C6: after `build_model_indexes`, the partition-key attribute of every
entity that has a parent equals its parent's partition-key attribute for
the same index: `_get_hash_key_value` returns
`getattr(model._parent, idx.hash_key.name)` verbatim whenever `_parent`
is set.  The hypotheses require the physical index attribute names to be
pairwise distinct and distinct from the primary `id` attribute, as in any
sane table configuration. -/
theorem c6_child_partition_key_equals_parent
    (tbl : TableCfg) (reg : String → Option ClassInfo) (T T2 : Entity)
    (hnd : (idxAttrNames tbl.indexes).Nodup)
    (hid : "id" ∉ idxAttrNames tbl.indexes)
    (hb : build_model_indexes tbl reg T = .ok T2) :
    ∀ pc ∈ edgesE T2, ∀ idx ∈ tbl.indexes,
      nodeAttr pc.2 idx.hash_key.name = nodeAttr pc.1 idx.hash_key.name :=
  buildEdgesE reg tbl.delimiter tbl.indexes hnd hid T T2 none hb

/-- Registry for the witness scenarios: a root Board holding a list of
nested Cards on `main-index`. -/
def wReg : String → Option ClassInfo := fun t =>
  if t = "Board" then
    some { schema := [("cards", .kMany)]
           indexDefs := [("main-index",
             { pk_fields := ["player_id"], sk_fields := ["board_id"] })] }
  else if t = "Card" then
    some { schema := []
           indexDefs := [("main-index", { pk_fields := [], sk_fields := ["tier"] })]
           isNested := true }
  else none

def wCard : Entity :=
  .mk { id := "c1", typeTag := "Card", scalars := [("tier", .vStr "LEGENDARY")] } .nil

def wBoard : Entity :=
  .mk { id := "b1", typeTag := "Board",
        scalars := [("player_id", .vStr "123"), ("board_id", .vStr "b-9")] }
    (.fMany "cards" (.lcons wCard .lnil) .nil)

def wTbl : TableCfg := { indexes := [mainIndexGSI] }

def wCardBuilt : Entity :=
  .mk { id := "c1", typeTag := "Card",
        scalars := [("tier", .vStr "LEGENDARY"),
          ("gsi_sk", .vStr "Board|b-9|Card|LEGENDARY"), ("gsi_pk", .vStr "123")] } .nil

def wBoardBuilt : Entity :=
  .mk { id := "b1", typeTag := "Board",
        scalars := [("player_id", .vStr "123"), ("board_id", .vStr "b-9"),
          ("gsi_sk", .vStr "Board|b-9"), ("gsi_pk", .vStr "123")] }
    (.fMany "cards" (.lcons wCardBuilt .lnil) .nil)

/-- C6 witness: the built nested Card inherits the Board's `gsi_pk`. -/
theorem c6_witness :
    nodeAttr wCardBuilt "gsi_pk" = nodeAttr wBoardBuilt "gsi_pk" := by
  have h := c6_child_partition_key_equals_parent wTbl wReg wBoard wBoardBuilt
    (by decide) (by decide) (by rfl)
  exact h (wBoardBuilt, wCardBuilt)
    (by
      rw [show edgesE wBoardBuilt = [(wBoardBuilt, wCardBuilt)] from rfl]
      exact List.mem_singleton.mpr rfl)
    mainIndexGSI (List.mem_singleton.mpr rfl)

mutual
/-- Building index attributes only rewrites scalar attributes: ids, tree
shape, well-formedness and deletion marks are preserved. -/
theorem buildKeepE (reg : String → Option ClassInfo) (delim : String)
    (idxs : List GSI) (e e2 : Entity) (pa : Option (List (String × Value)))
    (hb : buildE reg delim idxs pa e = .ok e2) :
    entityIds e2 = entityIds e ∧ (wfE reg e = true → wfE reg e2 = true) ∧
      noMarkedE e2 = noMarkedE e := by
  cases e with
  | mk d fs =>
    rw [buildE] at hb
    obtain ⟨sc, hsc, hb2⟩ := exceptBindOk hb
    obtain ⟨fs2, hfs2, hb3⟩ := exceptBindOk hb2
    rw [← Except.ok.inj hb3]
    obtain ⟨hschema, hids, hwf, hnm⟩ :=
      buildKeepF reg delim idxs fs fs2 (("id", Value.vStr d.id) :: sc) hfs2
    refine ⟨?_, ?_, ?_⟩
    · rw [entityIds, entityIds]
      dsimp only
      rw [hids]
    · intro hwfe
      rw [wfE] at hwfe ⊢
      dsimp only
      have hfn : fieldNames fs2 = fieldNames fs := by
        rw [fieldNames, fieldNames, hschema]
      rw [hschema, hfn]
      simp only [Bool.and_eq_true] at hwfe ⊢
      exact ⟨⟨⟨⟨hwfe.1.1.1.1, hwfe.1.1.1.2⟩, hwfe.1.1.2⟩, hwfe.1.2⟩, hwf hwfe.2⟩
    · rw [noMarkedE, noMarkedE]
      dsimp only
      rw [hnm]
theorem buildKeepF (reg : String → Option ClassInfo) (delim : String)
    (idxs : List GSI) (fs fs2 : ChildFields) (pattrs : List (String × Value))
    (hb : buildF reg delim idxs pattrs fs = .ok fs2) :
    fieldsSchema fs2 = fieldsSchema fs ∧ fieldsIds fs2 = fieldsIds fs ∧
      (wfF reg fs = true → wfF reg fs2 = true) ∧ noMarkedF fs2 = noMarkedF fs := by
  cases fs with
  | nil =>
    rw [buildF] at hb
    rw [← Except.ok.inj hb]
    exact ⟨rfl, rfl, fun h => h, rfl⟩
  | fOne f es rest =>
    rw [buildF] at hb
    obtain ⟨es2, hes2, hb2⟩ := exceptBindOk hb
    obtain ⟨rest2, hrest2, hb3⟩ := exceptBindOk hb2
    rw [← Except.ok.inj hb3]
    obtain ⟨hids, hlen, hwf, hnm⟩ := buildKeepL reg delim idxs es es2 pattrs hes2
    obtain ⟨hschemaR, hidsR, hwfR, hnmR⟩ := buildKeepF reg delim idxs rest rest2 pattrs hrest2
    refine ⟨?_, ?_, ?_, ?_⟩
    · rw [fieldsSchema, fieldsSchema, hschemaR]
    · rw [fieldsIds, fieldsIds, hids, hidsR]
    · intro hwff
      rw [wfF] at hwff ⊢
      simp only [Bool.and_eq_true, decide_eq_true_eq] at hwff ⊢
      exact ⟨⟨by rw [hlen]; exact hwff.1.1, hwf hwff.1.2⟩, hwfR hwff.2⟩
    · rw [noMarkedF, noMarkedF, hnm, hnmR]
  | fMany f es rest =>
    rw [buildF] at hb
    obtain ⟨es2, hes2, hb2⟩ := exceptBindOk hb
    obtain ⟨rest2, hrest2, hb3⟩ := exceptBindOk hb2
    rw [← Except.ok.inj hb3]
    obtain ⟨hids, hlen, hwf, hnm⟩ := buildKeepL reg delim idxs es es2 pattrs hes2
    obtain ⟨hschemaR, hidsR, hwfR, hnmR⟩ := buildKeepF reg delim idxs rest rest2 pattrs hrest2
    refine ⟨?_, ?_, ?_, ?_⟩
    · rw [fieldsSchema, fieldsSchema, hschemaR]
    · rw [fieldsIds, fieldsIds, hids, hidsR]
    · intro hwff
      rw [wfF] at hwff ⊢
      simp only [Bool.and_eq_true] at hwff ⊢
      exact ⟨hwf hwff.1, hwfR hwff.2⟩
    · rw [noMarkedF, noMarkedF, hnm, hnmR]
theorem buildKeepL (reg : String → Option ClassInfo) (delim : String)
    (idxs : List GSI) (es es2 : EntityList) (pattrs : List (String × Value))
    (hb : buildL reg delim idxs pattrs es = .ok es2) :
    elIds es2 = elIds es ∧ (elToList es2).length = (elToList es).length ∧
      (wfL reg es = true → wfL reg es2 = true) ∧ noMarkedL es2 = noMarkedL es := by
  cases es with
  | lnil =>
    rw [buildL] at hb
    rw [← Except.ok.inj hb]
    exact ⟨rfl, rfl, fun h => h, rfl⟩
  | lcons e rest =>
    rw [buildL] at hb
    obtain ⟨e2, he2, hb2⟩ := exceptBindOk hb
    obtain ⟨rest2, hrest2, hb3⟩ := exceptBindOk hb2
    rw [← Except.ok.inj hb3]
    obtain ⟨hidsE, hwfE, hnmE⟩ := buildKeepE reg delim idxs e e2 (some pattrs) he2
    obtain ⟨hidsR, hlenR, hwfR, hnmR⟩ := buildKeepL reg delim idxs rest rest2 pattrs hrest2
    refine ⟨?_, ?_, ?_, ?_⟩
    · rw [elIds, elIds, hidsE, hidsR]
    · rw [elToList, elToList, List.length_cons, List.length_cons, hlenR]
    · intro hwfl
      rw [wfL] at hwfl ⊢
      simp only [Bool.and_eq_true] at hwfl ⊢
      exact ⟨hwfE hwfl.1, hwfR hwfl.2⟩
    · rw [noMarkedL, noMarkedL, hnmE, hnmR]
end

mutual
theorem heightE_le_flatten (par : Option (String × String)) (e : Entity) :
    heightE e ≤ (flattenE par e).length := by
  cases e with
  | mk d fs =>
    rw [heightE, flattenE, List.length_cons]
    have h := heightF_le_flatten d.id fs
    omega
theorem heightF_le_flatten (pid : String) (fs : ChildFields) :
    heightF fs ≤ (flattenF pid fs).length := by
  cases fs with
  | nil => rw [heightF, flattenF]; exact Nat.zero_le _
  | fOne f es rest =>
    rw [heightF, flattenF, List.length_append]
    exact max_le (le_trans (heightL_le_flatten pid f es) (Nat.le_add_right _ _))
      (le_trans (heightF_le_flatten pid rest) (Nat.le_add_left _ _))
  | fMany f es rest =>
    rw [heightF, flattenF, List.length_append]
    exact max_le (le_trans (heightL_le_flatten pid f es) (Nat.le_add_right _ _))
      (le_trans (heightF_le_flatten pid rest) (Nat.le_add_left _ _))
theorem heightL_le_flatten (pid f : String) (es : EntityList) :
    heightL es ≤ (flattenL pid f es).length := by
  cases es with
  | lnil => rw [heightL, flattenL]; exact Nat.zero_le _
  | lcons e rest =>
    rw [heightL, flattenL, List.length_append]
    exact max_le (le_trans (heightE_le_flatten (some (pid, f)) e) (Nat.le_add_right _ _))
      (le_trans (heightL_le_flatten pid f rest) (Nat.le_add_left _ _))
end

/-- Round trip over an already well-formed tree (any tree of pydantic
model instances with distinct ids and no deletion marks). -/
theorem c1core (reg : String → Option ClassInfo) (T : Entity)
    (hwf : wfE reg T = true) (hnodup : (entityIds T).Nodup)
    (hnomark : noMarkedE T = true) :
    reconstruct_hierarchy reg (flattenE none T) = .ok (some T) := by
  have hitem := reconstructItem reg T ((flattenE none T).length) none [] []
    (heightE_le_flatten none T) hwf hnodup hnomark
    (by intro q g h; cases h)
    (by intro r hr; rcases hr with hr | hr <;> cases hr)
  rw [List.nil_append, List.append_nil] at hitem
  unfold reconstruct_hierarchy
  cases T with
  | mk d fs =>
    rw [flattenE, List.find?_cons_of_pos _ (by rfl)]
    rw [flattenE] at hitem
    rw [show recOf (Entity.mk d fs) none =
      ({ rid := d.id, rtype := d.typeTag, rscalars := d.scalars,
         rparent := none } : FlatRecord) from rfl] at hitem
    dsimp only
    rw [hitem]
    rfl

/-- C1: for every well-formed entity tree with duplicate-free ids and no
nodes marked for deletion, reconstructing the hierarchy from the flat
records of the index-built tree (`reconstruct_hierarchy` over the
serialized `split_to_simple_objects` output after `build_model_indexes`)
reproduces that tree exactly — the same field values and the same
parent/child structure.  The built tree differs from the input only in
the computed index attributes written into its scalar fields: its ids
(hence the parent/child structure) and deletion marks are unchanged, as
the trailing conjuncts state. -/
theorem c1_reconstruct_split_build_roundtrip
    (tbl : TableCfg) (reg : String → Option ClassInfo) (T T2 : Entity)
    (hwf : wfE reg T = true)
    (hnodup : (entityIds T).Nodup)
    (hnomark : noMarkedE T = true)
    (hbuild : build_model_indexes tbl reg T = .ok T2) :
    reconstruct_hierarchy reg (flattenE none T2) = .ok (some T2)
    ∧ entityIds T2 = entityIds T
    ∧ noMarkedE T2 = noMarkedE T := by
  obtain ⟨hids, hwf2, hnm2⟩ := buildKeepE reg tbl.delimiter tbl.indexes T T2 none hbuild
  refine ⟨?_, hids, hnm2⟩
  exact c1core reg T2 (hwf2 hwf) (by rw [hids]; exact hnodup) (hnm2.trans hnomark)

/-- C1 witness: the Board/Card tree, index-built, splits to flat records
and reconstructs to itself. -/
theorem c1_witness :
    reconstruct_hierarchy wReg (flattenE none wBoardBuilt) = .ok (some wBoardBuilt)
    ∧ entityIds wBoardBuilt = entityIds wBoard
    ∧ noMarkedE wBoardBuilt = noMarkedE wBoard :=
  c1_reconstruct_split_build_roundtrip wTbl wReg wBoard wBoardBuilt
    (by decide) (by decide) (by decide) (by rfl)

/-- The change-tracking fingerprint.  Python's `_recursive_hash` returns
the int 0 for untracked nodes and `hash(tuple(values))` otherwise; the
embedding keeps the value tuple itself, abstracting from hash
compression/collisions. -/
inductive Fingerprint where
  | zero
  | vals (l : List Value)
deriving DecidableEq, Repr

/-- `TrackingMixin.should_track` (models.py lines 67-71): the default
property delegates to the parent and returns False at a parentless node;
a subclass may override it with a constant (its `ClassInfo`'s
`shouldTrackOverride`).  `parentEff` is the parent's effective
`should_track` (`none` when the entity has no parent). -/
def should_track (reg : String → Option ClassInfo) (parentEff : Option Bool)
    (e : Entity) : Bool :=
  match reg e.data.typeTag with
  | some info =>
    match info.shouldTrackOverride with
    | some b => b
    | none => parentEff.getD false
  | none => parentEff.getD false

/-- The class's `ignore_tracking_fields()` (default empty). -/
def ignoreTrackingOf (reg : String → Option ClassInfo) (e : Entity) : List String :=
  match reg e.data.typeTag with
  | some info => info.ignoreTracking
  | none => []

/-- `TrackingMixin._recursive_hash` (models.py lines 76-129): 0 when the
node is untracked; otherwise the hashable values of the model's own
fields in declaration order (`id` first), skipping `_`-private fields,
ignored fields, fields holding entities or collections of entities (the
`ChildFields` of the embedding, which the source skips via the
`DatabaseModel` checks), and `None` values (whose `_make_hashable` result
`None` is dropped by the `is not None` guard). -/
def recursive_hash (reg : String → Option ClassInfo) (parentEff : Option Bool)
    (e : Entity) : Fingerprint :=
  if !(should_track reg parentEff e) then .zero
  else .vals ((("id", Value.vStr e.data.id) :: e.data.scalars).filterMap
    (fun p =>
      if pyStartsWith p.1 "_" || (ignoreTrackingOf reg e).contains p.1 then none
      else match p.2 with
        | .vNull => none
        | v => some v))

/-- `init_tracking`: capture the current fingerprint as `_original_hash`. -/
def init_tracking (reg : String → Option ClassInfo) (parentEff : Option Bool)
    (e : Entity) : Fingerprint :=
  recursive_hash reg parentEff e

/-- `TrackingMixin.was_modified` (models.py lines 150-155). -/
def was_modified (reg : String → Option ClassInfo) (parentEff : Option Bool)
    (e : Entity) (originalHash : Fingerprint) : Bool :=
  if should_track reg parentEff e then
    decide (recursive_hash reg parentEff e ≠ originalHash)
  else true

/-- Assign one of the entity's own scalar fields (`setattr`). -/
def setOwnScalar (e : Entity) (f : String) (v : Value) : Entity :=
  .mk { e.data with scalars := setScalar e.data.scalars f v } e.fields

/-- Replace the entity-valued fields wholesale: covers any modification
confined to child entities of the tree. -/
def withFields (e : Entity) (fs : ChildFields) : Entity :=
  .mk e.data fs

/-- A root model class with the DEFAULT tracking configuration (no
`should_track` override anywhere). -/
def c4defReg : String → Option ClassInfo := fun t =>
  if t = "Doc" then some { schema := [] } else none

def c4defRoot : Entity :=
  .mk { id := "r1", typeTag := "Doc", scalars := [("name", .vStr "a")] } .nil

/-- C4 counterexample: under the default configuration, `should_track` is
False at a parentless entity (models.py lines 67-71 return False when
`_parent is None`), so immediately after `init_tracking` `was_modified`
is True — not False as the claim states.  This matches the source's own
`test_tracking_disabled` ("untracked models should always be marked as
modified"). -/
theorem c4_counterexample :
    should_track c4defReg none c4defRoot = false
    ∧ was_modified c4defReg none c4defRoot
        (init_tracking c4defReg none c4defRoot) = true
    ∧ ¬ (was_modified c4defReg none c4defRoot
        (init_tracking c4defReg none c4defRoot) = false) := by
  exact ⟨rfl, rfl, by decide⟩

theorem setScalar_first (pre post : List (String × Value)) (f : String)
    (w v : Value) (hf : f ∉ pre.map Prod.fst) :
    setScalar (pre ++ (f, w) :: post) f v = pre ++ (f, v) :: post := by
  induction pre with
  | nil => simp [setScalar]
  | cons p rest ih =>
    obtain ⟨m, u⟩ := p
    simp only [List.map_cons, List.mem_cons, not_or] at hf
    rw [List.cons_append, setScalar, if_neg (fun hc => hf.1 hc.symm),
      List.cons_append, ih hf.2]

theorem filterMapConsToList {α β : Type} (g : α → Option β) (x : α) (l : List α) :
    List.filterMap g (x :: l) = (g x).toList ++ List.filterMap g l := by
  cases hx : g x <;> simp [List.filterMap_cons, hx, Option.toList]

theorem optPartNe (A B : List Value) (o1 o2 : Option Value) (h : o1 ≠ o2) :
    A ++ (o1.toList ++ B) ≠ A ++ (o2.toList ++ B) := by
  intro hcontra
  have h2 := List.append_cancel_left hcontra
  cases o1 with
  | none =>
    cases o2 with
    | none => exact h rfl
    | some v =>
      have hl := congrArg List.length h2
      simp only [Option.toList, List.nil_append, List.cons_append,
        List.length_cons] at hl
      omega
  | some v =>
    cases o2 with
    | none =>
      have hl := congrArg List.length h2
      simp only [Option.toList, List.nil_append, List.cons_append,
        List.length_cons] at hl
      omega
    | some w =>
      simp only [Option.toList, List.cons_append, List.cons.injEq] at h2
      exact h (by rw [h2.1])

/-- The per-field filter of `_recursive_hash`: drop private fields,
ignored fields and `None` values; keep the value otherwise. -/
def trackFilter (info : ClassInfo) : String × Value → Option Value := fun p =>
  if pyStartsWith p.1 "_" || info.ignoreTracking.contains p.1 then none
  else match p.2 with
    | .vNull => none
    | v => some v

/-- C4 (amended): the DEFAULT `should_track` is False for every entity (a
parentless root is untracked and always reports `was_modified = True`, see
the counterexample); for a root whose class OVERRIDES `should_track` to
True the claimed behaviour holds: immediately after `init_tracking`,
`was_modified` is False; assigning a different value to one of the root's
own (non-private, non-ignored, previously non-duplicated) scalar fields
makes `was_modified` True; and any modification confined to child
entities — here, replacing the entity-valued fields by arbitrary ones —
leaves the root's `was_modified` False. -/
theorem c4_tracked_root_modification
    (reg : String → Option ClassInfo) (d : EntityData) (fs : ChildFields)
    (info : ClassInfo) (f : String) (vOld vNew : Value)
    (pre post : List (String × Value))
    (hreg : reg d.typeTag = some info)
    (hov : info.shouldTrackOverride = some true)
    (hscal : d.scalars = pre ++ (f, vOld) :: post)
    (hfpre : f ∉ pre.map Prod.fst)
    (hpriv : pyStartsWith f "_" = false)
    (hign : info.ignoreTracking.contains f = false)
    (hne : vNew ≠ vOld) :
    was_modified reg none (.mk d fs) (init_tracking reg none (.mk d fs)) = false
    ∧ was_modified reg none (setOwnScalar (.mk d fs) f vNew)
        (init_tracking reg none (.mk d fs)) = true
    ∧ (∀ fs2, was_modified reg none (withFields (.mk d fs) fs2)
        (init_tracking reg none (.mk d fs)) = false) := by
  have htrack : should_track reg none (Entity.mk d fs) = true := by
    simp only [should_track, Entity.data, hreg, hov]
  have h1 : was_modified reg none (Entity.mk d fs)
      (init_tracking reg none (Entity.mk d fs)) = false := by
    rw [was_modified, if_pos htrack, init_tracking]
    simp
  refine ⟨h1, ?_, fun fs2 => h1⟩
  have htrack2 : should_track reg none (setOwnScalar (Entity.mk d fs) f vNew) = true := by
    simp only [should_track, setOwnScalar, Entity.data, Entity.fields, hreg, hov]
  rw [was_modified, if_pos htrack2, init_tracking]
  rw [decide_eq_true_eq]
  intro hcontra
  have hignAll : ignoreTrackingOf reg (setOwnScalar (Entity.mk d fs) f vNew)
      = info.ignoreTracking := by
    simp only [ignoreTrackingOf, setOwnScalar, Entity.data, Entity.fields, hreg]
  have hignAll0 : ignoreTrackingOf reg (Entity.mk d fs) = info.ignoreTracking := by
    simp only [ignoreTrackingOf, Entity.data, hreg]
  rw [recursive_hash, if_neg (by rw [htrack2]; simp),
      recursive_hash, if_neg (by rw [htrack]; simp)] at hcontra
  rw [hignAll, hignAll0] at hcontra
  dsimp only [setOwnScalar, Entity.data, Entity.fields] at hcontra
  rw [hscal, setScalar_first pre post f vOld vNew hfpre] at hcontra
  rw [Fingerprint.vals.injEq] at hcontra
  have hvals2 : List.filterMap (trackFilter info)
      (("id", Value.vStr d.id) :: (pre ++ (f, vNew) :: post))
      = List.filterMap (trackFilter info)
      (("id", Value.vStr d.id) :: (pre ++ (f, vOld) :: post)) := hcontra
  have hgsplit : ∀ v : Value,
      List.filterMap (trackFilter info)
        (("id", Value.vStr d.id) :: (pre ++ (f, v) :: post))
      = ((trackFilter info ("id", Value.vStr d.id)).toList
          ++ List.filterMap (trackFilter info) pre)
        ++ ((trackFilter info (f, v)).toList
          ++ List.filterMap (trackFilter info) post) := by
    intro v
    rw [filterMapConsToList, List.filterMap_append, filterMapConsToList]
    rw [List.append_assoc]
  rw [hgsplit, hgsplit] at hvals2
  have hgf : ∀ v : Value, trackFilter info (f, v)
      = match v with | .vNull => none | v => some v := by
    intro v
    simp only [trackFilter]
    rw [hpriv, hign]
    rw [if_neg (by simp)]
  have hone : trackFilter info (f, vNew) ≠ trackFilter info (f, vOld) := by
    rw [hgf, hgf]
    cases vNew with
    | vNull =>
      cases vOld with
      | vNull => exact absurd rfl hne
      | vStr s => simp
      | vInt n => simp
    | vStr s =>
      cases vOld with
      | vNull => simp
      | vStr t =>
        simp only [ne_eq, Option.some.injEq]
        intro hc
        exact hne hc
      | vInt n =>
        simp only [ne_eq, Option.some.injEq]
        intro hc
        exact hne hc
    | vInt n =>
      cases vOld with
      | vNull => simp
      | vStr t =>
        simp only [ne_eq, Option.some.injEq]
        intro hc
        exact hne hc
      | vInt m =>
        simp only [ne_eq, Option.some.injEq]
        intro hc
        exact hne hc
  exact optPartNe
    ((trackFilter info ("id", Value.vStr d.id)).toList
      ++ List.filterMap (trackFilter info) pre)
    (List.filterMap (trackFilter info) post)
    (trackFilter info (f, vNew)) (trackFilter info (f, vOld)) hone hvals2

/-- A root class overriding `should_track` to True, as in
`test_testing_configuration`. -/
def c4trReg : String → Option ClassInfo := fun t =>
  if t = "TrackedDoc" then
    some { schema := [("nested", FieldKind.kOne)], shouldTrackOverride := some true }
  else if t = "Nested" then some { schema := [], isNested := true }
  else none

def c4trNested : Entity :=
  .mk { id := "n1", typeTag := "Nested", scalars := [("bar", .vStr "bar")] } .nil

def c4trNested2 : Entity :=
  .mk { id := "n1", typeTag := "Nested", scalars := [("bar", .vStr "CHANGED")] } .nil

def c4trData : EntityData :=
  { id := "r1", typeTag := "TrackedDoc", scalars := [("foo", .vStr "foo")] }

def c4trFields : ChildFields :=
  .fOne "nested" (.lcons c4trNested .lnil) .nil

def c4trFields2 : ChildFields :=
  .fOne "nested" (.lcons c4trNested2 .lnil) .nil

/-- C4 witness: a tracked root is unmodified right after `init_tracking`,
is modified after assigning `foo := "bar"`, and stays unmodified when only
its nested child changes. -/
theorem c4_witness :
    was_modified c4trReg none (.mk c4trData c4trFields)
      (init_tracking c4trReg none (.mk c4trData c4trFields)) = false
    ∧ was_modified c4trReg none
        (setOwnScalar (.mk c4trData c4trFields) "foo" (.vStr "bar"))
        (init_tracking c4trReg none (.mk c4trData c4trFields)) = true
    ∧ was_modified c4trReg none (withFields (.mk c4trData c4trFields) c4trFields2)
        (init_tracking c4trReg none (.mk c4trData c4trFields)) = false := by
  obtain ⟨h1, h2, h3⟩ := c4_tracked_root_modification c4trReg c4trData c4trFields
    { schema := [("nested", FieldKind.kOne)], shouldTrackOverride := some true }
    "foo" (.vStr "foo") (.vStr "bar") [] []
    (by rfl) (by rfl) (by rfl) (by decide) (by decide) (by decide) (by decide)
  exact ⟨h1, h2, h3 c4trFields2⟩

/-- One node's snapshot key string, `Table._create_snapshot_representation`
(engine.py lines 653-661): `getattr(node, hash_key)` (an `AttributeError`
when the attribute is absent), then the sort attribute when the table's
key schema has one, formatted as the f-string `f"{hash}#{sort or empty}"`
with Python `str()` rendering (`Value.pyStr`). -/
def keyStringE (ks : KeySchema) (e : Entity) : Except EngineError String :=
  match nodeAttr e ks.hash_key with
  | none => .error (.attributeError ks.hash_key)
  | some hv =>
    match ks.sort_key with
    | none => .ok (hv.pyStr ++ "#")
    | some sk =>
      match nodeAttr e sk with
      | none => .error (.attributeError sk)
      | some sv => .ok (hv.pyStr ++ "#" ++ sv.pyStr)

mutual
/-- The snapshot key strings of all nodes of a tree, in the preorder of
`dfs_traverse_hierarchy` (yield self, then recurse through each
entity-valued field in declaration order); the set the source builds is
this list's `toFinset`. -/
def snapshotE (ks : KeySchema) : Entity → Except EngineError (List String)
  | .mk d fs =>
    match keyStringE ks (.mk d fs) with
    | .error e => .error e
    | .ok k =>
      match snapshotF ks fs with
      | .error e => .error e
      | .ok rest => .ok (k :: rest)
def snapshotF (ks : KeySchema) : ChildFields → Except EngineError (List String)
  | .nil => .ok []
  | .fOne _ es rest =>
    match snapshotL ks es with
    | .error e => .error e
    | .ok a =>
      match snapshotF ks rest with
      | .error e => .error e
      | .ok b => .ok (a ++ b)
  | .fMany _ es rest =>
    match snapshotL ks es with
    | .error e => .error e
    | .ok a =>
      match snapshotF ks rest with
      | .error e => .error e
      | .ok b => .ok (a ++ b)
def snapshotL (ks : KeySchema) : EntityList → Except EngineError (List String)
  | .lnil => .ok []
  | .lcons e rest =>
    match snapshotE ks e with
    | .error er => .error er
    | .ok a =>
      match snapshotL ks rest with
      | .error er => .error er
      | .ok b => .ok (a ++ b)
end

mutual
/-- The nodes of a tree in `split_to_simple_objects` preorder, each paired
with its `should_delete` flag: own `_should_delete` mark OR any ancestor
marked (`_is_any_parent_marked_for_deletion`, models.py lines 211-222);
`anc` carries whether some strict ancestor is marked. -/
def itemsWithDel (anc : Bool) : Entity → List (Entity × Bool)
  | .mk d fs => (.mk d fs, anc || d.marked) :: itemsWithDelF (anc || d.marked) fs
def itemsWithDelF (anc : Bool) : ChildFields → List (Entity × Bool)
  | .nil => []
  | .fOne _ es rest => itemsWithDelL anc es ++ itemsWithDelF anc rest
  | .fMany _ es rest => itemsWithDelL anc es ++ itemsWithDelF anc rest
def itemsWithDelL (anc : Bool) : EntityList → List (Entity × Bool)
  | .lnil => []
  | .lcons e rest => itemsWithDel anc e ++ itemsWithDelL anc rest
end

/-- The write set `Table.put_item` (engine.py lines 212-260) hands to its
batch: the keys deleted by key (previous snapshot minus current), the
nodes deleted as items (`should_delete`), the nodes put, and the new
snapshot key set stored into `model._db_snapshot_keys` on the way out. -/
structure SaveResult where
  deleteKeys : Finset String
  deleteItems : List Entity
  putItems : List Entity
  newSnapshotKeys : Finset String

/-- `Table.put_item` (engine.py lines 212-260): split the tree into simple
objects, compute the new snapshot keys, delete by key every key in
`model._db_snapshot_keys - new_keys`, delete every node with
`should_delete` and put the rest, finally store `new_keys` as the model's
snapshot. -/
def put_item (ks : KeySchema) (oldSnapshot : Finset String) (root : Entity) :
    Except EngineError SaveResult :=
  match snapshotE ks root with
  | .error e => .error e
  | .ok snapList =>
    .ok { deleteKeys := oldSnapshot \ snapList.toFinset
          deleteItems := ((itemsWithDel false root).filter (fun p => p.2)).map Prod.fst
          putItems := ((itemsWithDel false root).filter (fun p => !p.2)).map Prod.fst
          newSnapshotKeys := snapList.toFinset }

/-- `key.split("#", 1)` on the character list: break at the FIRST `#`;
`none` when there is no `#` (where Python's tuple unpacking would raise). -/
def splitAtFirstHash : List Char → Option (List Char × List Char)
  | [] => none
  | c :: rest =>
    if c = '#' then some ([], rest)
    else match splitAtFirstHash rest with
      | none => none
      | some (a, b) => some (c :: a, b)

def splitFirstHash (s : String) : Option (String × String) :=
  (splitAtFirstHash s.data).map (fun p => (⟨p.1⟩, ⟨p.2⟩))

/-- The delete-by-key parameters `put_item` assembles from one stale
snapshot key: `{hash_key: h}`, plus `{sort_key: s}` when the sort part is
truthy (engine.py lines 248-252).  A `none` sort key name would be the
Python `None` dict key, rendered here as the string "None"; on a schema
with a sort key (the only way the sort part is nonempty) it is never
used. -/
def deleteParamsOfKey (ks : KeySchema) (key : String) : Option (List (String × String)) :=
  (splitFirstHash key).map (fun p =>
    if p.2 ≠ "" then [(ks.hash_key, p.1), (ks.sort_key.getD "None", p.2)]
    else [(ks.hash_key, p.1)])

theorem splitAtFirstHashAppend (h s : List Char) (hn : ∀ c ∈ h, ¬ c = '#') :
    splitAtFirstHash (h ++ '#' :: s) = some (h, s) := by
  induction h with
  | nil => simp [splitAtFirstHash]
  | cons c rest ih =>
    rw [List.cons_append, splitAtFirstHash, if_neg (hn c (List.mem_cons_self c rest))]
    rw [ih (fun x hx => hn x (List.mem_cons_of_mem c hx))]

theorem splitFirstHashAppend (hv sv : String) (hn : ∀ c ∈ hv.data, ¬ c = '#') :
    splitFirstHash (hv ++ "#" ++ sv) = some (hv, sv) := by
  rw [splitFirstHash]
  have hd : (hv ++ "#" ++ sv).data = hv.data ++ '#' :: sv.data := by
    simp [String.data_append]
  rw [hd, splitAtFirstHashAppend hv.data sv.data hn]
  rfl

mutual
theorem itemsWithDelNoMarkE (e : Entity) (hnm : noMarkedE e = true) :
    ∀ p ∈ itemsWithDel false e, p.2 = false := by
  cases e with
  | mk d fs =>
    rw [noMarkedE, Bool.and_eq_true] at hnm
    have hd : d.marked = false := by
      have := hnm.1
      cases hm : d.marked
      · rfl
      · rw [hm] at this; exact absurd this (by decide)
    intro p hp
    rw [itemsWithDel] at hp
    rcases List.mem_cons.mp hp with h | h
    · rw [h]
      show (false || d.marked) = false
      rw [hd]
      rfl
    · have hOr : (false || d.marked) = false := by rw [hd]; rfl
      rw [hOr] at h
      exact itemsWithDelNoMarkF fs hnm.2 p h
theorem itemsWithDelNoMarkF (fs : ChildFields) (hnm : noMarkedF fs = true) :
    ∀ p ∈ itemsWithDelF false fs, p.2 = false := by
  cases fs with
  | nil => intro p hp; rw [itemsWithDelF] at hp; cases hp
  | fOne f0 es rest =>
    rw [noMarkedF, Bool.and_eq_true] at hnm
    intro p hp
    rw [itemsWithDelF] at hp
    rcases List.mem_append.mp hp with h | h
    · exact itemsWithDelNoMarkL es hnm.1 p h
    · exact itemsWithDelNoMarkF rest hnm.2 p h
  | fMany f0 es rest =>
    rw [noMarkedF, Bool.and_eq_true] at hnm
    intro p hp
    rw [itemsWithDelF] at hp
    rcases List.mem_append.mp hp with h | h
    · exact itemsWithDelNoMarkL es hnm.1 p h
    · exact itemsWithDelNoMarkF rest hnm.2 p h
theorem itemsWithDelNoMarkL (es : EntityList) (hnm : noMarkedL es = true) :
    ∀ p ∈ itemsWithDelL false es, p.2 = false := by
  cases es with
  | lnil => intro p hp; rw [itemsWithDelL] at hp; cases hp
  | lcons e rest =>
    rw [noMarkedL, Bool.and_eq_true] at hnm
    intro p hp
    rw [itemsWithDelL] at hp
    rcases List.mem_append.mp hp with h | h
    · exact itemsWithDelNoMarkE e hnm.1 p h
    · exact itemsWithDelNoMarkL rest hnm.2 p h
end

theorem insertSdiffSelf (a : String) (s : Finset String) (ha : a ∉ s) :
    insert a s \ s = {a} := by
  ext x
  simp only [Finset.mem_sdiff, Finset.mem_insert, Finset.mem_singleton]
  constructor
  · rintro ⟨h1 | h1, h2⟩
    · exact h1
    · exact absurd h1 h2
  · rintro rfl
    exact ⟨Or.inl rfl, ha⟩

/-- C3: starting from a tree T1 saved with `put_item` (which stored T1's
snapshot key set), saving a tree T2 in which one leaf of T1 was removed
(its key `kLeaf` is gone, every other key is retained) issues exactly one
delete-by-key whose key is the removed leaf's prior
`{partition}#{sort}` snapshot string, issues no delete for any retained
node (no node of T2 is marked, so the item-delete batch is empty and no
retained key is in the delete set), replaces the stored snapshot by T2's
key set (the delete set being previous minus current), and the
delete-by-key parameters recover the leaf's prior (partition, sort)
attribute pair. -/
theorem c3_removed_leaf_single_key_delete
    (ks : KeySchema) (T1 T2 leaf : Entity) (s0 : Finset String) (res1 : SaveResult)
    (l1 l2 : List String) (kLeaf hv sv skName : String)
    (hsk : ks.sort_key = some skName)
    (hsave1 : put_item ks s0 T1 = .ok res1)
    (hsnap1 : snapshotE ks T1 = .ok l1)
    (hsnap2 : snapshotE ks T2 = .ok l2)
    (hnomark : noMarkedE T2 = true)
    (hkey : keyStringE ks leaf = .ok kLeaf)
    (hremoved : l1.toFinset = insert kLeaf l2.toFinset)
    (hgone : kLeaf ∉ l2)
    (hhv : nodeAttr leaf ks.hash_key = some (.vStr hv))
    (hsv : nodeAttr leaf skName = some (.vStr sv))
    (hnoHash : ∀ c ∈ hv.data, ¬ c = '#')
    (hsvne : sv ≠ "") :
    ∃ res2, put_item ks res1.newSnapshotKeys T2 = .ok res2
      ∧ res2.deleteKeys = {kLeaf}
      ∧ res2.deleteItems = []
      ∧ (∀ k ∈ l2, k ∉ res2.deleteKeys)
      ∧ res2.newSnapshotKeys = l2.toFinset
      ∧ deleteParamsOfKey ks kLeaf = some [(ks.hash_key, hv), (skName, sv)] := by
  have hres1 : res1.newSnapshotKeys = l1.toFinset := by
    simp only [put_item, hsnap1] at hsave1
    injection hsave1 with hh
    rw [← hh]
  have hkval : kLeaf = hv ++ "#" ++ sv := by
    simp only [keyStringE, hhv, hsk, hsv, Value.pyStr] at hkey
    injection hkey with hh2
    rw [← hh2]
  have hgoneF : kLeaf ∉ l2.toFinset := by
    rw [List.mem_toFinset]
    exact hgone
  have hdk : res1.newSnapshotKeys \ l2.toFinset = {kLeaf} := by
    rw [hres1, hremoved]
    exact insertSdiffSelf kLeaf l2.toFinset hgoneF
  refine ⟨{ deleteKeys := res1.newSnapshotKeys \ l2.toFinset
            deleteItems := ((itemsWithDel false T2).filter (fun p => p.2)).map Prod.fst
            putItems := ((itemsWithDel false T2).filter (fun p => !p.2)).map Prod.fst
            newSnapshotKeys := l2.toFinset }, ?_, hdk, ?_, ?_, rfl, ?_⟩
  · simp only [put_item, hsnap2]
  · show ((itemsWithDel false T2).filter (fun p => p.2)).map Prod.fst = []
    have hfil : (itemsWithDel false T2).filter (fun p => p.2) = [] :=
      List.filter_eq_nil_iff.mpr
        (fun p hp => by rw [itemsWithDelNoMarkE T2 hnomark p hp]; exact Bool.false_ne_true)
    rw [hfil]
    rfl
  · intro k hk
    show k ∉ res1.newSnapshotKeys \ l2.toFinset
    rw [hdk, Finset.mem_singleton]
    intro hke
    exact hgone (hke ▸ hk)
  · rw [hkval, deleteParamsOfKey, splitFirstHashAppend hv sv hnoHash]
    dsimp only [Option.map]
    rw [if_pos hsvne, hsk]
    rfl

def c3ks : KeySchema := { hash_key := "id", sort_key := some "sk" }

def c3leaf : Entity :=
  .mk { id := "c1", typeTag := "Card", scalars := [("sk", .vStr "s1")] } .nil

def c3T1 : Entity :=
  .mk { id := "r", typeTag := "Board", scalars := [("sk", .vStr "s0")] }
    (.fOne "card" (.lcons c3leaf .lnil) .nil)

def c3T2 : Entity :=
  .mk { id := "r", typeTag := "Board", scalars := [("sk", .vStr "s0")] } .nil

/-- The write set recorded by the first save of the two-node tree. -/
def c3res1 : SaveResult :=
  { deleteKeys := (∅ : Finset String) \ (["r#s0", "c1#s1"] : List String).toFinset
    deleteItems := ((itemsWithDel false c3T1).filter (fun p => p.2)).map Prod.fst
    putItems := ((itemsWithDel false c3T1).filter (fun p => !p.2)).map Prod.fst
    newSnapshotKeys := (["r#s0", "c1#s1"] : List String).toFinset }

/-- C3 witness: saving the root alone after removing the card leaf deletes
exactly the key `c1#s1`, deletes no item, keeps `r#s0`, stores the new
snapshot, and the delete parameters are the card's (id, sk) pair. -/
theorem c3_witness :
    ∃ res2, put_item c3ks c3res1.newSnapshotKeys c3T2 = .ok res2
      ∧ res2.deleteKeys = {"c1#s1"}
      ∧ res2.deleteItems = []
      ∧ (∀ k ∈ (["r#s0"] : List String), k ∉ res2.deleteKeys)
      ∧ res2.newSnapshotKeys = (["r#s0"] : List String).toFinset
      ∧ deleteParamsOfKey c3ks "c1#s1" = some [("id", "c1"), ("sk", "s1")] :=
  c3_removed_leaf_single_key_delete c3ks c3T1 c3T2 c3leaf ∅ c3res1
    ["r#s0", "c1#s1"] ["r#s0"] "c1#s1" "c1" "s1" "sk"
    rfl rfl rfl rfl rfl rfl (by decide) (by decide) rfl rfl (by decide) (by decide)
